import Mathlib

/-!
Verification development for the cooked rendering reverse proxy.

Strings from the Go source are modelled as explicit character lists
(List Char); Go helpers from the standard library (strings.Split,
strings.TrimSpace, strings.ToLower for ASCII input, net.SplitHostPort)
are translated alongside the repository code that calls them.
-/

namespace Cooked

/-! ### Basic character/string helpers (ASCII model of Go strings helpers) -/

/-- ASCII lower-casing of one character (model of strings.ToLower on
ASCII): the letters A-Z, code points 65-90, shift by 32. -/
def lowerChar (c : Char) : Char :=
  if 65 ≤ c.toNat ∧ c.toNat ≤ 90 then Char.ofNat (c.toNat + 32) else c

/-- ASCII lower-casing of a string. -/
def lowerStr (s : List Char) : List Char := s.map lowerChar

/-- Space/tab/newline test, model of unicode.IsSpace on the ASCII range
(strings.TrimSpace trims these). -/
def isSpaceChar (c : Char) : Bool :=
  c == ' ' || c == '\t' || c == '\n' || c == '\r'

/-- Model of strings.TrimSpace (leading and trailing whitespace removed). -/
def trimSpace (s : List Char) : List Char :=
  ((s.dropWhile isSpaceChar).reverse.dropWhile isSpaceChar).reverse

/-- Model of strings.Split on a single separator character. -/
def splitOn (sep : Char) (s : List Char) : List (List Char) :=
  match s with
  | [] => [[]]
  | c :: rest =>
    let r := splitOn sep rest
    if c == sep then [] :: r
    else match r with
         | [] => [[c]]
         | g :: gs => (c :: g) :: gs

/-- Boolean substring containment: does w occur contiguously inside s? -/
def hasSubstr (s w : List Char) : Bool :=
  w.isPrefixOf s ||
    (match s with
     | [] => false
     | _ :: t => hasSubstr t w)

/-- Boolean membership of a character. -/
def hasChar (s : List Char) (c : Char) : Bool := s.any (fun d => d == c)

theorem prefixOf_ex {l m : List Char} : l.isPrefixOf m = true ↔ ∃ t, m = l ++ t := by
  induction l generalizing m with
  | nil => simp [List.isPrefixOf]
  | cons a l ih =>
    cases m with
    | nil => simp [List.isPrefixOf]
    | cons b m =>
      simp only [List.isPrefixOf, Bool.and_eq_true, beq_iff_eq, ih]
      constructor
      · rintro ⟨rfl, t, rfl⟩; exact ⟨t, rfl⟩
      · rintro ⟨t, h⟩
        injection h with h1 h2
        exact ⟨h1.symm, t, h2⟩

theorem hasSubstr_ex {s w : List Char} :
    hasSubstr s w = true ↔ ∃ p t, s = p ++ w ++ t := by
  induction s with
  | nil =>
    simp only [hasSubstr, Bool.or_eq_true, prefixOf_ex]
    constructor
    · rintro (⟨t, h⟩ | h)
      · exact ⟨[], t, h⟩
      · cases h
    · rintro ⟨p, t, h⟩
      left
      cases p with
      | nil => exact ⟨t, h⟩
      | cons a p => simp at h
  | cons a s ih =>
    simp only [hasSubstr, Bool.or_eq_true, prefixOf_ex, ih]
    constructor
    · rintro (⟨t, h⟩ | ⟨p, t, h⟩)
      · exact ⟨[], t, h⟩
      · exact ⟨a :: p, t, by simp [h]⟩
    · rintro ⟨p, t, h⟩
      cases p with
      | nil => exact Or.inl ⟨t, h⟩
      | cons b p =>
        injection h with h1 h2
        exact Or.inr ⟨p, t, h2⟩

/-! ### Allowlist (src/unnamed/part_006, package server)

The Allowlist stores CIDR ranges, wildcard suffixes and exact hostnames.
CIDR membership is evaluated through net.IPNet.Contains and hostnames are
resolved through the injected resolver; both are Go-standard-library
behaviour, modelled here as explicit data (a membership function, and a
resolver function passed to ParseAllowlist).  No claim in this development
exercises a CIDR entry, so parseCIDR only needs to be a fixed total
function; it models IPv4 dotted-quad CIDR parsing and treats other forms
as unparseable (Go would also accept IPv6 CIDRs). -/

/-- An IP address, modelled abstractly as its textual bytes. -/
abbrev IPAddr : Type := List Char

/-- A parsed CIDR range, modelled by its membership test. -/
structure Cidr where
  contains : IPAddr → Bool

/-- A DNS resolver: host to list of addresses, none on resolution failure
(models the resolver field net.DefaultResolver.LookupIPAddr). -/
def Resolver : Type := List Char → Option (List IPAddr)

/-- Allowlist (part_006): CIDR ranges, wildcard suffixes stored with their
leading dot, lower-cased exact hostnames, and the injected resolver. -/
structure Allowlist where
  cidrs : List Cidr
  wildcards : List (List Char)
  exact : List (List Char)
  resolver : Resolver

/-- Decimal digit test. -/
def isDigitChar (c : Char) : Bool := '0' ≤ c && c ≤ '9'

/-- Parse an unsigned decimal number; none when empty or non-digits. -/
def parseDec (s : List Char) : Option Nat :=
  if s ≠ [] && s.all isDigitChar then
    some (s.foldl (fun n c => n * 10 + (c.toNat - 48)) 0)
  else none

/-- Model of net.ParseCIDR restricted to IPv4 dotted-quad entries
(a.b.c.d/len); IPv6 CIDR text is modelled as unparseable.  The resulting
membership test compares the textual address against the masked range by
re-parsing it as dotted quad. -/
def parseIPv4 (s : List Char) : Option Nat :=
  match (splitOn '.' s).mapM parseDec with
  | some [a, b, c, d] =>
    if a < 256 && b < 256 && c < 256 && d < 256 then
      some (((a * 256 + b) * 256 + c) * 256 + d)
    else none
  | _ => none

def parseCIDR (s : List Char) : Option Cidr :=
  match splitOn '/' s with
  | [ip, len] =>
    match parseIPv4 ip, parseDec len with
    | some v, some n =>
      if n ≤ 32 then
        some ⟨fun addr =>
          match parseIPv4 addr with
          | some w => w / 2 ^ (32 - n) == v / 2 ^ (32 - n)
          | none => false⟩
      else none
    | _, _ => none
  | _ => none

/-- One parse step of ParseAllowlist's entry loop (part_006 lines 128-146):
classify a trimmed entry as CIDR, wildcard, or exact hostname. -/
def addEntry (a : Allowlist) (rawEntry : List Char) : Allowlist :=
  let entry := trimSpace rawEntry
  if entry = [] then a
  else if hasChar entry '/' then
    match parseCIDR entry with
    | some cidr => { a with cidrs := a.cidrs ++ [cidr] }
    | none => a
  else if (('*' :: '.' :: []) : List Char).isPrefixOf entry then
    { a with wildcards := a.wildcards ++ [lowerStr (entry.drop 1)] }
  else
    { a with exact := a.exact ++ [lowerStr entry] }

/-- ParseAllowlist (part_006): none for the empty string (nil allowlist,
allow all); otherwise fold the comma-separated entries. -/
def ParseAllowlist (resolver : Resolver) (raw : List Char) : Option Allowlist :=
  if raw = [] then none
  else some ((splitOn ',' raw).foldl addEntry ⟨[], [], [], resolver⟩)

/-- Model of net.SplitHostPort: split "host:port" at the final colon;
error (none) when there is no colon, more than one colon outside brackets,
or bracket syntax is malformed.  IPv6 bracket form "[h]:p" strips the
brackets. -/
def splitHostPort (s : List Char) : Option (List Char × List Char) :=
  match s with
  | '[' :: rest =>
    let host := rest.takeWhile (fun c => c ≠ ']')
    match rest.dropWhile (fun c => c ≠ ']') with
    | ']' :: ':' :: port =>
      if hasChar port '[' || hasChar port ']' || hasChar port ':' then none
      else some (host, port)
    | _ => none
  | _ =>
    if hasChar s '[' || hasChar s ']' then none
    else
      let revAll := s.reverse
      let revPort := revAll.takeWhile (fun c => c ≠ ':')
      match revAll.dropWhile (fun c => c ≠ ':') with
      | ':' :: revHost =>
        if hasChar revHost ':' then none
        else some (revHost.reverse, revPort.reverse)
      | _ => none

/-- Allows (part_006 lines 153-204, the resolver-bearing version): strip
the port and lower-case, then test exact entries (exact or dot-suffix),
wildcard suffixes (suffix but not the bare parent), and finally CIDRs
(direct test for IP-literal hosts, resolver-based test otherwise).
A none allowlist permits every host. -/
def hostnameOf (host : List Char) : List Char :=
  match splitHostPort host with
  | some (h, _) => lowerStr h
  | none => lowerStr host

/-- Model of net.ParseIP usage inside Allows: a host is treated as an IP
literal when it parses as IPv4 dotted quad (IPv6 literals inside Allows
would contain colons, which SplitHostPort has already stripped away for
bracketed forms; unbracketed IPv6 host strings are not exercised by any
claim and are modelled as non-literals). -/
def parseIPLit (s : List Char) : Option IPAddr :=
  match parseIPv4 s with
  | some _ => some s
  | none => none

def Allows (a? : Option Allowlist) (host : List Char) : Bool :=
  match a? with
  | none => true
  | some a =>
    let hostname := hostnameOf host
    if a.exact.any (fun entry =>
        hostname == entry || ('.' :: entry).isSuffixOf hostname) then true
    else if a.wildcards.any (fun suffix =>
        suffix.isSuffixOf hostname && hostname ≠ suffix.drop 1) then true
    else if a.cidrs.length > 0 then
      match parseIPLit hostname with
      | some ip => a.cidrs.any (fun cidr => cidr.contains ip)
      | none =>
        match a.resolver hostname with
        | none => false
        | some addrs => addrs.any (fun addr => a.cidrs.any (fun c => c.contains addr))
    else false

/-! ### Claims C3 and C10: allowlist matching and parsing -/

/-- The hosts and expressions named by claim C3. -/
def exprCgit : List Char := ("cgit.internal").data
def exprWild : List Char := ("*.internal").data

/-- C3: For an allowlist parsed from the expression cgit.internal, Allows
accepts cgit.internal and sub.cgit.internal and rejects
cgit.internal.attacker.com; for the expression *.internal, Allows accepts
foo.internal and a.b.internal and rejects the bare parent internal; in
general an exact entry matches only the host itself or hosts ending with
".entry", never prefix extensions of the entry (part_006 Allows). -/
theorem claim_C3 :
    ∀ r : Resolver,
      (Allows (ParseAllowlist r exprCgit) (("cgit.internal").data) = true ∧
       Allows (ParseAllowlist r exprCgit) (("sub.cgit.internal").data) = true ∧
       Allows (ParseAllowlist r exprCgit) (("cgit.internal.attacker.com").data) = false) ∧
      (Allows (ParseAllowlist r exprWild) (("foo.internal").data) = true ∧
       Allows (ParseAllowlist r exprWild) (("a.b.internal").data) = true ∧
       Allows (ParseAllowlist r exprWild) (("internal").data) = false) ∧
      (∀ e h, Allows (some ⟨[], [], [e], r⟩) h = true ↔
        (hostnameOf h = e ∨ ('.' :: e) <:+ hostnameOf h)) := by
  intro r
  refine ⟨⟨rfl, rfl, rfl⟩, ⟨rfl, rfl, rfl⟩, ?_⟩
  intro e h
  simp [Allows]

/-- C10: Parsing an allowlist expression that is non-empty but contains
only whitespace and commas (for example " , ") yields a non-nil allowlist
with zero entries whose Allows rejects every host, whereas parsing the
empty string yields nil, which allows every host (part_006 ParseAllowlist
and Allows). -/
theorem claim_C10 :
    ∀ r : Resolver,
      (ParseAllowlist r ((" , ").data) = some ⟨[], [], [], r⟩ ∧
       ∀ h, Allows (ParseAllowlist r ((" , ").data)) h = false) ∧
      (ParseAllowlist r [] = none ∧
       ∀ h, Allows (ParseAllowlist r []) h = true) := by
  intro r
  exact ⟨⟨rfl, fun h => rfl⟩, ⟨rfl, fun h => rfl⟩⟩

/-! ### Fetch client (src/internal/fetch/client.go) -/

/-- A URL as seen by the redirect check: scheme, host and path text. -/
structure URLm where
  scheme : List Char
  host : List Char
  path : List Char
deriving DecidableEq

/-- Errors produced by the redirect policy (client.go CheckRedirect). -/
inductive RedirectErr where
  | tooManyRedirects
  | unsupportedScheme (s : List Char)
  | blocked (target : URLm)
deriving DecidableEq

/-- maxRedirects (client.go line 57). -/
def maxRedirects : Nat := 5

/-- A redirect validator: some error blocks the hop (client.go
RedirectValidator; the Go error value is modelled by the offending URL). -/
def Validator : Type := URLm → Option Unit

/-- Scheme admissibility as CheckRedirect tests it (client.go line 107). -/
def schemeHttpOk (u : URLm) : Bool :=
  u.scheme == ("http").data || u.scheme == ("https").data

/-- Does the configured validator veto this target?  (client.go lines
110-114: validator != nil and validator(req.URL) != nil.) -/
def validatorBlocks (validator : Option Validator) (req : URLm) : Bool :=
  match validator with
  | some v => (v req).isSome
  | none => false

/-- CheckRedirect (client.go lines 103-116): req is the redirect target
about to be requested, via the list of requests already made. -/
def CheckRedirect (validator : Option Validator) (req : URLm) (via : List URLm) :
    Option RedirectErr :=
  if via.length ≥ maxRedirects then some .tooManyRedirects
  else if !schemeHttpOk req then some (.unsupportedScheme req.scheme)
  else if validatorBlocks validator req then some (.blocked req)
  else none

/-- The redirect loop of Go's http.Client.do, specialised to the repo's
CheckRedirect: before each redirect target is requested, CheckRedirect is
consulted with the list of requests made so far; on nil the target is
appended to that list and followed.  targets is the chain of redirect
targets the upstream serves. -/
def followRedirects (validator : Option Validator) (via : List URLm)
    (targets : List URLm) : Except RedirectErr (List URLm) :=
  match targets with
  | [] => .ok via
  | t :: ts =>
    match CheckRedirect validator t via with
    | some e => .error e
    | none => followRedirects validator (via ++ [t]) ts

/-- A whole fetch: the initial request req0 followed by the redirect
chain the upstream answers with. -/
def fetchFollow (validator : Option Validator) (req0 : URLm)
    (targets : List URLm) : Except RedirectErr (List URLm) :=
  followRedirects validator [req0] targets

/-- One hop is admissible: scheme ok and not vetoed by the validator. -/
def hopOk (validator : Option Validator) (u : URLm) : Prop :=
  schemeHttpOk u = true ∧ validatorBlocks validator u = false

theorem checkRedirect_none_iff (validator : Option Validator) (req : URLm)
    (via : List URLm) :
    CheckRedirect validator req via = none ↔
      via.length < maxRedirects ∧ hopOk validator req := by
  unfold CheckRedirect hopOk
  split_ifs with h1 h2 h3
  · simp only [reduceCtorEq, false_iff]
    rintro ⟨hl, -, -⟩
    omega
  · simp only [reduceCtorEq, false_iff]
    rintro ⟨-, hs, -⟩
    simp [hs] at h2
  · simp only [reduceCtorEq, false_iff]
    rintro ⟨-, -, hv⟩
    rw [hv] at h3
    exact Bool.noConfusion h3
  · simp only [true_iff]
    exact ⟨by omega, by simpa using h2, by simpa using h3⟩

theorem followRedirects_ok_sound (validator : Option Validator) :
    ∀ targets via res, followRedirects validator via targets = .ok res →
      (targets = [] ∨ via.length + targets.length ≤ maxRedirects) ∧
      ∀ t ∈ targets, hopOk validator t := by
  intro targets
  induction targets with
  | nil =>
    intro via res _
    exact ⟨Or.inl rfl, by simp⟩
  | cons t ts ih =>
    intro via res h
    unfold followRedirects at h
    rcases hc : CheckRedirect validator t via with _ | e
    · rw [hc] at h
      obtain ⟨hlen, hsch, hval⟩ := (checkRedirect_none_iff validator t via).mp hc
      obtain ⟨hrest, hall⟩ := ih (via ++ [t]) res h
      refine ⟨Or.inr ?_, ?_⟩
      · rcases hrest with hnil | hle
        · subst hnil; simp only [List.length_cons, List.length_nil]; omega
        · simp only [List.length_append, List.length_cons, List.length_nil] at hle ⊢
          omega
      · intro u hu
        rcases List.mem_cons.mp hu with rfl | hu
        · exact ⟨hsch, hval⟩
        · exact hall u hu
    · rw [hc] at h
      cases h

theorem followRedirects_ok_complete (validator : Option Validator) :
    ∀ targets via,
      (∀ t ∈ targets, hopOk validator t) →
      via.length + targets.length ≤ maxRedirects →
      followRedirects validator via targets = .ok (via ++ targets) := by
  intro targets
  induction targets with
  | nil => intro via _ _; simp [followRedirects]
  | cons t ts ih =>
    intro via hall hlen
    obtain ⟨hsch, hval⟩ := hall t (List.mem_cons_self t ts)
    have hc : CheckRedirect validator t via = none := by
      refine (checkRedirect_none_iff validator t via).mpr ⟨?_, hsch, hval⟩
      simp only [List.length_cons] at hlen
      omega
    unfold followRedirects
    rw [hc]
    have := ih (via ++ [t]) (fun u hu => hall u (List.mem_cons_of_mem t hu))
      (by simp only [List.length_append, List.length_cons, List.length_nil] at hlen ⊢; omega)
    rw [this]
    simp

theorem followRedirects_tooMany (validator : Option Validator) :
    ∀ targets via,
      (∀ t ∈ targets, hopOk validator t) →
      via.length ≤ maxRedirects →
      via.length + targets.length > maxRedirects →
      followRedirects validator via targets = .error .tooManyRedirects := by
  intro targets
  induction targets with
  | nil =>
    intro via _ hvia hlen
    simp only [List.length_nil, Nat.add_zero] at hlen
    omega
  | cons t ts ih =>
    intro via hall hvia hlen
    by_cases hv : via.length ≥ maxRedirects
    · unfold followRedirects CheckRedirect
      simp [hv]
    · obtain ⟨hsch, hval⟩ := hall t (List.mem_cons_self t ts)
      have hc : CheckRedirect validator t via = none :=
        (checkRedirect_none_iff validator t via).mpr ⟨by omega, hsch, hval⟩
      unfold followRedirects
      rw [hc]
      exact ih (via ++ [t]) (fun u hu => hall u (List.mem_cons_of_mem t hu))
        (by simp only [List.length_append, List.length_cons, List.length_nil]; omega)
        (by simp only [List.length_append, List.length_cons, List.length_nil] at hlen ⊢; omega)

/-! ### Claim C5: redirect policy -/

/-- The concrete URL used for the C5 counterexample. -/
def urlEx : URLm := ⟨("http").data, ("h").data, ("/").data⟩

/-- C5 counterexample: a redirect chain of exactly 5 hops — a chain that
does not exceed 5 — with valid http targets and no validator configured
fails with the too-many-redirects error, contradicting the claim that
5 hops are followed and only chains exceeding 5 fail.  CheckRedirect
rejects as soon as five requests are already in the via chain
(client.go line 104, len(via) >= maxRedirects), so only 4 redirect hops
can ever be followed. -/
theorem claim_C5_counterexample :
    (List.replicate 5 urlEx).length = 5 ∧
      fetchFollow none urlEx (List.replicate 5 urlEx) =
        .error .tooManyRedirects := by
  exact ⟨rfl, rfl⟩

/-- C5 amended: for every fetch, at most 4 redirect hops are followed and
a chain of 5 or more hops fails with a too-many-redirects error (the hop
checked when 5 requests were already made is rejected); every hop whose
target scheme is not http or https is rejected; and when a redirect
validator is configured it is called on each hop's target URL and a
non-nil result blocks the redirect with an error. -/
theorem claim_C5_amended :
    ∀ (validator : Option Validator) (req0 : URLm) (targets : List URLm),
      (∀ res, fetchFollow validator req0 targets = .ok res →
        targets.length ≤ 4 ∧ ∀ t ∈ targets, hopOk validator t) ∧
      ((∀ t ∈ targets, hopOk validator t) →
        targets.length ≥ 5 →
        fetchFollow validator req0 targets = .error .tooManyRedirects) ∧
      ((∀ t ∈ targets, hopOk validator t) →
        targets.length ≤ 4 →
        fetchFollow validator req0 targets = .ok (req0 :: targets)) := by
  intro validator req0 targets
  refine ⟨?_, ?_, ?_⟩
  · intro res h
    obtain ⟨hlen, hall⟩ := followRedirects_ok_sound validator targets [req0] res h
    refine ⟨?_, hall⟩
    rcases hlen with rfl | hle
    · simp
    · simp only [List.length_cons, List.length_nil, maxRedirects] at hle
      omega
  · intro hall hlen
    exact followRedirects_tooMany validator targets [req0] hall
      (by simp [maxRedirects])
      (by simp only [List.length_cons, List.length_nil, maxRedirects]; omega)
  · intro hall hlen
    have := followRedirects_ok_complete validator targets [req0] hall
      (by simp only [List.length_cons, List.length_nil, maxRedirects]; omega)
    simpa using this

/-- C5 witness: the amended theorem applied at a concrete 5-hop chain and
at a concrete 2-hop chain. -/
theorem claim_C5_witness :
    fetchFollow none urlEx (List.replicate 5 urlEx) = .error .tooManyRedirects ∧
      fetchFollow none urlEx [urlEx, urlEx] = .ok [urlEx, urlEx, urlEx] := by
  constructor
  · exact (claim_C5_amended none urlEx (List.replicate 5 urlEx)).2.1
      (by intro t ht; simp only [List.mem_replicate] at ht; rw [ht.2]
          exact ⟨by decide, by decide⟩)
      (by simp)
  · exact (claim_C5_amended none urlEx [urlEx, urlEx]).2.2
      (by intro t ht
          rcases List.mem_cons.mp ht with rfl | ht
          · exact ⟨by decide, by decide⟩
          · rcases List.mem_cons.mp ht with rfl | ht
            · exact ⟨by decide, by decide⟩
            · cases ht)
      (by simp)

/-! ### Claim C6: body size enforcement (client.go Fetch, lines 150-185) -/

/-- Errors surfaced by the size-enforcement part of Fetch. -/
inductive SizeErr where
  | tooLargeAdvertised
  | tooLargeStream
deriving DecidableEq

/-- A fetch result as far as size enforcement is concerned. -/
structure BodyRes where
  body : List Nat
  statusCode : Int
deriving DecidableEq

/-- The post-response part of Fetch (client.go lines 150-185): on 304
return with no body; otherwise fail if a positive advertised
Content-Length exceeds maxFileSize, else read the body through
io.LimitReader(resp.Body, maxFileSize+1) and fail if more than
maxFileSize bytes came through.  stream is the full body the upstream
would deliver; contentLength is resp.ContentLength (-1 when unknown). -/
def fetchBody (maxFileSize : Nat) (statusCode : Int) (contentLength : Int)
    (stream : List Nat) : Except SizeErr BodyRes :=
  if statusCode = 304 then .ok ⟨[], 304⟩
  else if contentLength > 0 ∧ contentLength > (maxFileSize : Int) then
    .error .tooLargeAdvertised
  else
    let body := stream.take (maxFileSize + 1)
    if body.length > maxFileSize then .error .tooLargeStream
    else .ok ⟨body, statusCode⟩

/-- C6: For every non-304 upstream response, the fetch fails before
reading the body when the advertised Content-Length exceeds the maximum
file size (the outcome is the advertised-too-large error for every
possible body stream); otherwise the body is read through a
length-limited reader admitting at most max+1 bytes and the fetch fails
exactly when more than max bytes were read, so a body of exactly max
bytes succeeds with the full body. -/
theorem claim_C6 (maxFileSize : Nat) (statusCode : Int) (contentLength : Int)
    (stream : List Nat) (hst : statusCode ≠ 304) :
    (contentLength > (maxFileSize : Int) →
      fetchBody maxFileSize statusCode contentLength stream =
        .error .tooLargeAdvertised) ∧
    (contentLength ≤ (maxFileSize : Int) →
      ((∃ e, fetchBody maxFileSize statusCode contentLength stream = .error e) ↔
        stream.length > maxFileSize)) ∧
    (contentLength ≤ (maxFileSize : Int) → stream.length = maxFileSize →
      fetchBody maxFileSize statusCode contentLength stream =
        .ok ⟨stream, statusCode⟩) := by
  refine ⟨?_, ?_, ?_⟩
  · intro hcl
    unfold fetchBody
    rw [if_neg hst, if_pos ⟨by omega, hcl⟩]
  · intro hcl
    unfold fetchBody
    rw [if_neg hst, if_neg (by omega)]
    simp only [List.length_take]
    constructor
    · rintro ⟨e, he⟩
      by_cases hlen : min (maxFileSize + 1) stream.length > maxFileSize
      · omega
      · rw [if_neg hlen] at he
        cases he
    · intro hlen
      rw [if_pos (by omega)]
      exact ⟨.tooLargeStream, rfl⟩
  · intro hcl hlen
    unfold fetchBody
    rw [if_neg hst, if_neg (by omega)]
    rw [if_neg (by simp only [List.length_take]; omega)]
    rw [List.take_of_length_le (by omega)]

/-- C6 witness: the theorem applied at max 4 with a 9-byte advertised
length, at a 5-byte stream under a 4-byte cap, and at an exactly-4-byte
stream. -/
theorem claim_C6_witness :
    fetchBody 4 200 9 [0, 0] = .error .tooLargeAdvertised ∧
      (∃ e, fetchBody 4 200 (-1) [1, 2, 3, 4, 5] = .error e) ∧
      fetchBody 4 200 (-1) [1, 2, 3, 4] = .ok ⟨[1, 2, 3, 4], 200⟩ := by
  refine ⟨?_, ?_, ?_⟩
  · exact (claim_C6 4 200 9 [0, 0] (by decide)).1 (by decide)
  · exact ((claim_C6 4 200 (-1) [1, 2, 3, 4, 5] (by decide)).2.1 (by decide)).mpr
      (by decide)
  · exact (claim_C6 4 200 (-1) [1, 2, 3, 4] (by decide)).2.2 (by decide) (by decide)

/-! ### Cache status and cached client (src/internal/cache/cache.go lines
12-17, src/internal/fetch/client_test.go lines 243-313) -/

/-- cache.Status (cache.go lines 12-17).  The source declares exactly the
four constants StatusHit, StatusMiss, StatusRevalidated and
StatusExpired; no stale value exists. -/
inductive CStatus where
  | hit
  | miss
  | revalidated
  | expired
deriving DecidableEq

/-- The string constant each Status value carries (cache.go lines 13-16). -/
def CStatus.label : CStatus → List Char
  | .hit => ("hit").data
  | .miss => ("miss").data
  | .revalidated => ("revalidated").data
  | .expired => ("expired").data

/-- cache.Entry (cache.go lines 20-27). -/
structure CEntry where
  html : List Char
  etag : List Char
  lastModified : List Char
  size : Int
  contentType : List Char
  expiresAt : Int
deriving DecidableEq

/-- fetch.Result restricted to the fields the cached client inspects and
produces (client.go lines 17-25). -/
structure FResult where
  statusCode : Int
  fetchMs : Int
deriving DecidableEq

/-- fetch.CachedResult (client_test.go lines 250-254). -/
structure CachedResult where
  result : FResult
  cacheStatus : CStatus
deriving DecidableEq

/-- CachedClient.Fetch (client_test.go lines 266-313) as a function of
its two effectful inputs: the cache lookup outcome (cc.cache.Get) and the
outcome the underlying client fetch would produce (conditional on the
expired path, unconditional on the miss path).  The RefreshTTL side
effect of the 304 branch does not change the returned triple and is not
modelled here. -/
def cachedClientFetch (cacheRes : Option CEntry × CStatus)
    (condFetch : Except (List Char) FResult)
    (uncondFetch : Except (List Char) FResult) :
    Except (List Char) (CachedResult × Option CEntry) :=
  match cacheRes with
  | (entry, .hit) => .ok (⟨⟨200, 0⟩, .hit⟩, entry)
  | (entry, .expired) =>
    match condFetch with
    | .error _ => .ok (⟨⟨200, 0⟩, .hit⟩, entry)
    | .ok r =>
      if r.statusCode = 304 then .ok (⟨r, .revalidated⟩, entry)
      else .ok (⟨r, .expired⟩, none)
  | (_, _) =>
    match uncondFetch with
    | .error e => .error e
    | .ok r => .ok (⟨r, .miss⟩, none)

/-- C1: when the cache reports an expired entry and the conditional
re-fetch fails, CachedClient.Fetch does serve the cached entry with
status code 200 instead of surfacing the error — but it labels the
response with cache status "hit", not "stale": the Status type of
cache.go has no stale value at all, so no execution can produce the
X-Cooked-Cache: stale label the specification promises.  The repository's
own tests (part_005 line 164, server_test.go line 1065) and README
reference cache.StatusStale, which the code does not define. -/
theorem claim_C1_divergence :
    ∀ (e : CEntry) (err : List Char) (uncond : Except (List Char) FResult),
      cachedClientFetch (some e, .expired) (.error err) uncond =
        .ok (⟨⟨200, 0⟩, .hit⟩, some e) ∧
      (cachedClientFetch (some e, .expired) (.error err) uncond).toOption.map
          (fun r => r.1.cacheStatus.label) = some (("hit").data) ∧
      ∀ s : CStatus, s.label ≠ ("stale").data := by
  intro e err uncond
  refine ⟨rfl, rfl, ?_⟩
  intro s
  cases s <;> decide

/-! ### Cache (src/internal/cache/cache.go)

The Go cache pairs a map with a container/list ordered by recency; the
model keeps one association list ordered most-recently-used first, which
is exactly the information the map+list pair encodes.  The injectable
clock is modelled by passing the current instant to each operation; TTL,
sizes and instants are Int (Go time and int64 arithmetic). -/

structure CacheM where
  order : List (List Char × CEntry)
  curSize : Int
  ttl : Int
  maxSize : Int
deriving DecidableEq

/-- cache.New (cache.go lines 46-54). -/
def cacheNew (ttl maxSize : Int) : CacheM := ⟨[], 0, ttl, maxSize⟩

/-- Sum of the stored entry sizes. -/
def sumSizes (l : List (List Char × CEntry)) : Int :=
  (l.map (fun p => p.2.size)).sum

/-- The invariant of §4.5: tracked size equals the sum of entry sizes. -/
def sizeInv (c : CacheM) : Prop := sumSizes c.order = c.curSize

def keyIs (k : List Char) : (List Char × CEntry) → Bool := fun p => p.1 == k

/-- Lookup in the recency list (the Go map access c.items[key]). -/
def lookupKey (k : List Char) (l : List (List Char × CEntry)) : Option CEntry :=
  (l.find? (keyIs k)).map Prod.snd

/-- Cache.Get (cache.go lines 58-77): miss when absent; when present and
past expiry return the entry with status expired without touching the
order; when fresh move the element to the front and return hit. -/
def cacheGet (now : Int) (c : CacheM) (k : List Char) :
    Option CEntry × CStatus × CacheM :=
  match lookupKey k c.order with
  | none => (none, .miss, c)
  | some e =>
    if now > e.expiresAt then (some e, .expired, c)
    else (some e, .hit, { c with order := (k, e) :: c.order.eraseP (keyIs k) })

/-- Cache.evict (cache.go lines 119-130): drop entries from the back of
the recency list while the tracked size exceeds the maximum and entries
remain. -/
def cacheEvict (c : CacheM) : CacheM :=
  if c.curSize > c.maxSize ∧ c.order ≠ [] then
    cacheEvict { c with
      order := c.order.dropLast,
      curSize := c.curSize - ((c.order.getLast?.map (fun p => p.2.size)).getD 0) }
  else c
termination_by c.order.length
decreasing_by
  rename_i h
  simp only [List.length_dropLast]
  have := List.length_pos.mpr h.2
  omega

/-- Cache.Put (cache.go lines 80-104): stamp the expiry with now+TTL;
replace-and-adjust-size and move to front when the key exists, otherwise
push to the front and add the size; then evict.  Go adds the Size of the
expiry-stamped entry, which equals e.size (only ExpiresAt changes), so
the size arithmetic is written with e.size. -/
def cachePut (now : Int) (c : CacheM) (k : List Char) (e : CEntry) : CacheM :=
  match lookupKey k c.order with
  | some old =>
    cacheEvict { c with
      order := (k, { e with expiresAt := now + c.ttl }) :: c.order.eraseP (keyIs k),
      curSize := c.curSize - old.size + e.size }
  | none =>
    cacheEvict { c with
      order := (k, { e with expiresAt := now + c.ttl }) :: c.order,
      curSize := c.curSize + e.size }

/-- Cache.RefreshTTL (cache.go lines 107-116): bump the expiry of an
existing entry and move it to the front, leaving sizes untouched. -/
def cacheRefreshTTL (now : Int) (c : CacheM) (k : List Char) : CacheM :=
  match lookupKey k c.order with
  | some e =>
    { c with order := (k, { e with expiresAt := now + c.ttl }) :: c.order.eraseP (keyIs k) }
  | none => c

/-- One cache operation with its observation instant. -/
inductive CacheOp where
  | get (now : Int) (k : List Char)
  | put (now : Int) (k : List Char) (e : CEntry)
  | refresh (now : Int) (k : List Char)

def applyOp (c : CacheM) : CacheOp → CacheM
  | .get now k => (cacheGet now c k).2.2
  | .put now k e => cachePut now c k e
  | .refresh now k => cacheRefreshTTL now c k

def runOps (c : CacheM) (ops : List CacheOp) : CacheM :=
  ops.foldl applyOp c

theorem find_eraseP_sum (k : List Char) :
    ∀ (l : List (List Char × CEntry)) (e : CEntry),
      (l.find? (keyIs k)).map Prod.snd = some e →
      sumSizes l = e.size + sumSizes (l.eraseP (keyIs k)) := by
  intro l
  induction l with
  | nil => intro e h; cases h
  | cons a l ih =>
    intro e h
    by_cases ha : keyIs k a
    · rw [List.find?_cons_of_pos _ ha] at h
      injection h with h
      rw [List.eraseP_cons_of_pos ha]
      simp [sumSizes, h]
    · rw [List.find?_cons_of_neg _ ha] at h
      rw [List.eraseP_cons_of_neg (by simpa using ha)]
      have := ih e h
      simp only [sumSizes, List.map_cons, List.sum_cons] at this ⊢
      omega

theorem sumSizes_dropLast (l : List (List Char × CEntry)) (h : l ≠ []) :
    sumSizes l.dropLast =
      sumSizes l - ((l.getLast?.map (fun p => p.2.size)).getD 0) := by
  induction l with
  | nil => exact absurd rfl h
  | cons a l ih =>
    cases l with
    | nil => simp [sumSizes]
    | cons b l =>
      have hne : (b :: l) ≠ ([] : List (List Char × CEntry)) := by simp
      have := ih hne
      simp only [List.dropLast_cons₂, sumSizes, List.map_cons, List.sum_cons,
        List.getLast?_cons_cons] at this ⊢
      omega

theorem cacheEvict_sizeInv : ∀ c : CacheM, sizeInv c → sizeInv (cacheEvict c) := by
  intro c
  induction c using cacheEvict.induct with
  | case1 c hcond ih =>
    intro hinv
    rw [cacheEvict, if_pos hcond]
    refine ih ?_
    unfold sizeInv at hinv ⊢
    simp only []
    rw [sumSizes_dropLast c.order hcond.2, hinv]
  | case2 c hcond =>
    intro hinv
    rw [cacheEvict, if_neg hcond]
    exact hinv

theorem cacheGet_sizeInv (now : Int) (c : CacheM) (k : List Char)
    (h : sizeInv c) : sizeInv (cacheGet now c k).2.2 := by
  unfold cacheGet
  rcases hf : lookupKey k c.order with _ | e
  · exact h
  · dsimp only
    split_ifs with hexp
    · exact h
    · unfold sizeInv at h ⊢
      simp only [sumSizes, List.map_cons, List.sum_cons]
      have := find_eraseP_sum k c.order e hf
      unfold sumSizes at this h
      omega

theorem cachePut_sizeInv (now : Int) (c : CacheM) (k : List Char) (e : CEntry)
    (h : sizeInv c) : sizeInv (cachePut now c k e) := by
  unfold cachePut
  rcases hf : lookupKey k c.order with _ | old
  · refine cacheEvict_sizeInv _ ?_
    unfold sizeInv at h ⊢
    simp only [sumSizes, List.map_cons, List.sum_cons]
    unfold sumSizes at h
    omega
  · refine cacheEvict_sizeInv _ ?_
    unfold sizeInv at h ⊢
    simp only [sumSizes, List.map_cons, List.sum_cons]
    have := find_eraseP_sum k c.order old hf
    unfold sumSizes at this h
    omega

theorem cacheRefreshTTL_sizeInv (now : Int) (c : CacheM) (k : List Char)
    (h : sizeInv c) : sizeInv (cacheRefreshTTL now c k) := by
  unfold cacheRefreshTTL
  rcases hf : lookupKey k c.order with _ | e
  · exact h
  · unfold sizeInv at h ⊢
    simp only [sumSizes, List.map_cons, List.sum_cons]
    have := find_eraseP_sum k c.order e hf
    unfold sumSizes at this h
    omega

theorem runOps_sizeInv (ops : List CacheOp) :
    ∀ c : CacheM, sizeInv c → sizeInv (runOps c ops) := by
  induction ops with
  | nil => intro c h; exact h
  | cons op ops ih =>
    intro c h
    unfold runOps at ih ⊢
    rw [List.foldl_cons]
    refine ih _ ?_
    cases op with
    | get now k => exact cacheGet_sizeInv now c k h
    | put now k e => exact cachePut_sizeInv now c k e h
    | refresh now k => exact cacheRefreshTTL_sizeInv now c k h

/-- Eviction only removes elements from the back: the result is a prefix
of the starting order. -/
theorem cacheEvict_order : ∀ c : CacheM, ∃ t, c.order = (cacheEvict c).order ++ t := by
  intro c
  induction c using cacheEvict.induct with
  | case1 c hcond ih =>
    rw [cacheEvict, if_pos hcond]
    obtain ⟨t, ht⟩ := ih
    simp only [] at ht
    refine ⟨t ++ (c.order.getLast?.map (fun x => [x])).getD [], ?_⟩
    have : c.order = c.order.dropLast ++ (c.order.getLast?.map (fun x => [x])).getD [] := by
      cases ho : c.order with
      | nil => simp
      | cons a l =>
        rw [← ho]
        rw [List.getLast?_eq_getLast _ (by rw [ho]; simp)]
        simp [List.dropLast_append_getLast]
    conv_lhs => rw [this, ht]
    simp
  | case2 c hcond =>
    rw [cacheEvict, if_neg hcond]
    exact ⟨[], by simp⟩

theorem mem_dropLast_mem {α : Type} {l : List α} {a : α} (h : a ∈ l.dropLast) :
    a ∈ l := by
  induction l with
  | nil => cases h
  | cons b l ih =>
    cases l with
    | nil => cases h
    | cons c l =>
      rw [List.dropLast_cons₂] at h
      rcases List.mem_cons.mp h with rfl | h
      · exact List.mem_cons_self _ _
      · exact List.mem_cons_of_mem _ (ih h)

theorem cacheEvict_maxSize : ∀ c : CacheM, (cacheEvict c).maxSize = c.maxSize := by
  intro c
  induction c using cacheEvict.induct with
  | case1 c hcond ih => rw [cacheEvict, if_pos hcond]; exact ih
  | case2 c hcond => rw [cacheEvict, if_neg hcond]

/-- Eviction stops only once the tracked size fits the budget; with the
size invariant, non-negative sizes and a non-negative budget, the result
always fits. -/
theorem cacheEvict_le : ∀ c : CacheM, sizeInv c →
    (∀ p ∈ c.order, 0 ≤ p.2.size) → 0 ≤ c.maxSize →
    (cacheEvict c).curSize ≤ c.maxSize := by
  intro c
  induction c using cacheEvict.induct with
  | case1 c hcond ih =>
    intro hinv hnn hmax
    rw [cacheEvict, if_pos hcond]
    refine ih ?_ ?_ hmax
    · unfold sizeInv at hinv ⊢
      simp only []
      rw [sumSizes_dropLast c.order hcond.2, hinv]
    · intro p hp
      exact hnn p (mem_dropLast_mem hp)
  | case2 c hcond =>
    intro hinv hnn hmax
    rw [cacheEvict, if_neg hcond]
    rcases Classical.em (c.curSize ≤ c.maxSize) with h | h
    · exact h
    · exfalso
      rcases Classical.em (c.order = []) with ho | ho
      · unfold sizeInv at hinv
        rw [ho] at hinv
        simp [sumSizes] at hinv
        omega
      · exact hcond ⟨by omega, ho⟩

/-- When the front entry alone exceeds the budget (sizes non-negative,
invariant holding), eviction drains the whole list. -/
theorem cacheEvict_front_big : ∀ c : CacheM, sizeInv c →
    (∀ p ∈ c.order, 0 ≤ p.2.size) →
    (∀ k e, c.order.head? = some (k, e) → e.size > c.maxSize) →
    c.order ≠ [] →
    (cacheEvict c).order = [] := by
  intro c
  induction c using cacheEvict.induct with
  | case1 c hcond ih =>
    intro hinv hnn hbig hne
    rw [cacheEvict, if_pos hcond]
    by_cases hlen : c.order.length ≤ 1
    · have hdrop : c.order.dropLast = [] := by
        cases ho : c.order with
        | nil => simp
        | cons a l =>
          rw [ho] at hlen
          simp only [List.length_cons] at hlen
          have : l = [] := List.eq_nil_of_length_eq_zero (by omega)
          subst this
          simp
      rw [cacheEvict]
      rw [if_neg (by simp [hdrop])]
      simpa using hdrop
    · refine ih ?_ ?_ ?_ ?_
      · unfold sizeInv at hinv ⊢
        simp only []
        rw [sumSizes_dropLast c.order hcond.2, hinv]
      · intro p hp
        exact hnn p (mem_dropLast_mem hp)
      · intro k e he
        simp only [] at he
        refine hbig k e ?_
        rcases ho : c.order with _ | ⟨a, l⟩
        · exact absurd ho hne
        · rcases hl : l with _ | ⟨b, l2⟩
          · rw [ho, hl] at hlen; simp at hlen
          · rw [ho, hl] at he
            rw [List.dropLast_cons₂] at he
            simp only [List.head?_cons] at he ⊢
            exact he
      · intro hd
        simp only [] at hd
        have h0 := congrArg List.length hd
        simp only [List.length_dropLast, List.length_nil] at h0
        omega
  | case2 c hcond =>
    intro hinv hnn hbig hne
    exfalso
    rcases ho : c.order with _ | ⟨⟨k, e⟩, l⟩
    · exact hne ho
    · have hbig' : e.size > c.maxSize := hbig k e (by rw [ho]; rfl)
      have hsum : sumSizes l ≥ 0 := by
        have : ∀ p ∈ l, 0 ≤ p.2.size := fun p hp =>
          hnn p (by rw [ho]; exact List.mem_cons_of_mem _ hp)
        clear hbig' hbig hcond hinv ho hne
        induction l with
        | nil => simp [sumSizes]
        | cons a l ih =>
          simp only [sumSizes, List.map_cons, List.sum_cons]
          have h1 := this a (List.mem_cons_self _ _)
          have h2 := ih (fun p hp => this p (List.mem_cons_of_mem _ hp))
          unfold sumSizes at h2
          omega
      have : c.curSize > c.maxSize := by
        unfold sizeInv at hinv
        rw [ho] at hinv
        simp only [sumSizes, List.map_cons, List.sum_cons] at hinv
        unfold sumSizes at hsum
        omega
      exact hcond ⟨this, by rw [ho]; simp⟩

/-- C7: for every sequence of cache operations starting from a state
satisfying the size invariant (in particular from the empty cache New
produces), the sum of stored entry sizes equals the tracked current size
after every operation; and Put stamps the entry with expiry now+TTL and
replaces-and-adjusts-size (key present) or inserts at the
most-recently-used position (key absent), after which entries are evicted
from the LRU end only — the final order is a prefix of the pre-eviction
order — until the size is at most the maximum (or the cache is empty). -/
theorem claim_C7 :
    (∀ (ttl maxSize : Int) (ops : List CacheOp),
      sizeInv (runOps (cacheNew ttl maxSize) ops)) ∧
    (∀ (now : Int) (c : CacheM) (k : List Char) (e : CEntry),
      ∃ t, ((k, { e with expiresAt := now + c.ttl }) :: c.order.eraseP (keyIs k)) =
        (cachePut now c k e).order ++ t) ∧
    (∀ (now : Int) (c : CacheM) (k : List Char) (e : CEntry),
      sizeInv c →
      0 ≤ c.maxSize → (∀ p ∈ c.order, 0 ≤ p.2.size) → 0 ≤ e.size →
      (cachePut now c k e).curSize ≤ c.maxSize) := by
  refine ⟨?_, ?_, ?_⟩
  · intro ttl maxSize ops
    exact runOps_sizeInv ops _ (by unfold sizeInv cacheNew sumSizes; simp)
  · intro now c k e
    unfold cachePut
    rcases hf : lookupKey k c.order with _ | old
    · have hev := cacheEvict_order { c with
        order := (k, { e with expiresAt := now + c.ttl }) :: c.order,
        curSize := c.curSize + e.size }
      simp only [] at hev
      have herase : c.order.eraseP (keyIs k) = c.order := by
        refine List.eraseP_of_forall_not ?_
        intro p hp
        by_contra hk
        have hs : (c.order.find? (keyIs k)).isSome := List.find?_isSome.mpr ⟨p, hp, by simpa using hk⟩
        rw [lookupKey] at hf
        rcases hfo : c.order.find? (keyIs k) with _ | q
        · rw [hfo] at hs; cases hs
        · rw [hfo] at hf; cases hf
      rw [herase]
      exact hev
    · exact cacheEvict_order { c with
        order := (k, { e with expiresAt := now + c.ttl }) :: c.order.eraseP (keyIs k),
        curSize := c.curSize - old.size + e.size }
  · intro now c k e hinv hmax hnn hen
    unfold cachePut
    rcases hf : lookupKey k c.order with _ | old
    · have hres := cacheEvict_le { c with
        order := (k, { e with expiresAt := now + c.ttl }) :: c.order,
        curSize := c.curSize + e.size }
        (by unfold sizeInv at hinv ⊢
            simp only [sumSizes, List.map_cons, List.sum_cons]
            unfold sumSizes at hinv
            omega)
        (by intro p hp
            rcases List.mem_cons.mp hp with rfl | hp
            · exact hen
            · exact hnn p hp)
        hmax
      exact hres
    · have hres := cacheEvict_le { c with
        order := (k, { e with expiresAt := now + c.ttl }) :: c.order.eraseP (keyIs k),
        curSize := c.curSize - old.size + e.size }
        (by unfold sizeInv at hinv ⊢
            simp only [sumSizes, List.map_cons, List.sum_cons]
            have := find_eraseP_sum k c.order old hf
            unfold sumSizes at this hinv
            omega)
        (by intro p hp
            rcases List.mem_cons.mp hp with rfl | hp
            · exact hen
            · exact hnn p (List.mem_of_mem_eraseP hp))
        hmax
      exact hres

/-- A small concrete entry used by the cache witnesses. -/
def entryEx40 : CEntry := ⟨[], [], [], 40, [], 0⟩

/-- An oversized concrete entry used by the cache witnesses. -/
def entryEx150 : CEntry := ⟨[], [], [], 150, [], 0⟩

/-- C7 witness: the sequence put/get/put/refresh on a fresh cache keeps
the invariant, the put-shape fact at a concrete state, and the size bound
at a concrete put. -/
theorem claim_C7_witness :
    sizeInv (runOps (cacheNew 10 100)
      [.put 0 (("k").data) entryEx40,
       .get 1 (("k").data),
       .put 2 (("j").data) ⟨[], [], [], 70, [], 0⟩,
       .refresh 3 (("k").data)]) ∧
    (∃ t, ((("k").data, { entryEx40 with expiresAt := 0 + (cacheNew 10 100).ttl }) ::
        (cacheNew 10 100).order.eraseP (keyIs (("k").data))) =
      (cachePut 0 (cacheNew 10 100) (("k").data) entryEx40).order ++ t) ∧
    (cachePut 0 (cacheNew 10 100) (("k").data) entryEx40).curSize ≤ 100 := by
  refine ⟨claim_C7.1 10 100 _, claim_C7.2.1 0 (cacheNew 10 100) (("k").data) entryEx40, ?_⟩
  have h := claim_C7.2.2 0 (cacheNew 10 100) (("k").data) entryEx40
    (by unfold sizeInv cacheNew sumSizes; simp)
    (by decide)
    (by intro p hp; cases hp)
    (by decide)
  exact h

/-- C9: for every cache state satisfying the size invariant with
non-negative entry sizes, a non-negative maximum and a put of an entry of
non-negative size, the tracked size is at most the maximum once Put
returns; and when the entry's size alone exceeds the maximum, eviction
drains the cache — including the entry just inserted — so an immediate
Get of that key misses. -/
theorem claim_C9 (now now2 : Int) (c : CacheM) (k : List Char) (e : CEntry)
    (hinv : sizeInv c) (hnn : ∀ p ∈ c.order, 0 ≤ p.2.size)
    (hmax : 0 ≤ c.maxSize) (hen : 0 ≤ e.size) :
    (cachePut now c k e).curSize ≤ c.maxSize ∧
    (e.size > c.maxSize →
      (cachePut now c k e).order = [] ∧
      cacheGet now2 (cachePut now c k e) k =
        (none, .miss, cachePut now c k e)) := by
  constructor
  · exact claim_C7.2.2 now c k e hinv hmax hnn hen
  · intro hbig
    have horder : (cachePut now c k e).order = [] := by
      unfold cachePut
      rcases hf : lookupKey k c.order with _ | old
      · refine cacheEvict_front_big _ ?_ ?_ ?_ (by simp)
        · unfold sizeInv at hinv ⊢
          simp only [sumSizes, List.map_cons, List.sum_cons]
          unfold sumSizes at hinv
          omega
        · intro p hp
          rcases List.mem_cons.mp hp with rfl | hp
          · exact hen
          · exact hnn p hp
        · intro k' e' he'
          simp only [List.head?_cons] at he'
          injection he' with he'
          have hsnd : e' = { e with expiresAt := now + c.ttl } :=
            (congrArg Prod.snd he').symm
          rw [hsnd]
          exact hbig
      · refine cacheEvict_front_big _ ?_ ?_ ?_ (by simp)
        · unfold sizeInv at hinv ⊢
          simp only [sumSizes, List.map_cons, List.sum_cons]
          have := find_eraseP_sum k c.order old hf
          unfold sumSizes at this hinv
          omega
        · intro p hp
          rcases List.mem_cons.mp hp with rfl | hp
          · exact hen
          · exact hnn p (List.mem_of_mem_eraseP hp)
        · intro k' e' he'
          simp only [List.head?_cons] at he'
          injection he' with he'
          have hsnd : e' = { e with expiresAt := now + c.ttl } :=
            (congrArg Prod.snd he').symm
          rw [hsnd]
          exact hbig
    refine ⟨horder, ?_⟩
    unfold cacheGet lookupKey
    rw [horder]
    rfl

/-- C9 witness: the theorem applied to the empty cache of budget 100 and
an entry of size 150. -/
theorem claim_C9_witness :
    (cachePut 0 (cacheNew 10 100) (("k").data) ⟨[], [], [], 150, [], 0⟩).curSize ≤ 100 ∧
      (cachePut 0 (cacheNew 10 100) (("k").data) ⟨[], [], [], 150, [], 0⟩).order = [] := by
  have h := claim_C9 0 1 (cacheNew 10 100) (("k").data) ⟨[], [], [], 150, [], 0⟩
    (by unfold sizeInv cacheNew sumSizes; simp)
    (by intro p hp; cases hp)
    (by decide)
    (by decide)
  exact ⟨h.1, (h.2 (by decide)).1⟩

/-! ### Detector extension test and URL rewriter
(src/internal/render/detect.go, src/internal/rewrite/rewrite.go) -/

/-- The reversed final slash-separated segment of a path (the region Go's
path.Ext scans: from the end backwards until a slash). -/
def lastSegRev (s : List Char) : List Char :=
  s.reverse.takeWhile (fun c => c ≠ '/')

/-- Go path.Ext on the scanned region: the suffix from the final dot of
the final segment, empty when the segment has no dot. -/
def extOfRevSeg (r : List Char) : List Char :=
  if (r.takeWhile (fun c => c ≠ '.')).length = r.length then []
  else '.' :: (r.takeWhile (fun c => c ≠ '.')).reverse

/-- Go path.Ext. -/
def pathExt (s : List Char) : List Char := extOfRevSeg (lastSegRev s)

/-- markdownExts (detect.go lines 27-32). -/
def markdownExtList : List (List Char) :=
  [(".md").data, (".markdown").data, (".mdown").data, (".mkd").data]

/-- IsMarkdownLink (detect.go lines 128-131): lower-cased extension in
markdownExts or equal to ".mdx". -/
def isMarkdownLink (urlPath : List Char) : Bool :=
  let ext := lowerStr (pathExt urlPath)
  markdownExtList.contains ext || ext == ((".mdx").data)

/-- Component-stack formulation of Go path.Clean: skip empty and dot
components, let ".." pop a previous component (or survive when unrooted
and nothing is left to pop), keep the rest.  The stack holds the kept
components most-recent first. -/
def cleanStack (rooted : Bool) (stack : List (List Char)) :
    List (List Char) → List (List Char)
  | [] => stack
  | comp :: rest =>
    if comp = [] ∨ comp = ((".").data) then cleanStack rooted stack rest
    else if comp = (("..").data) then
      match stack with
      | top :: stack2 =>
        if top = (("..").data) then cleanStack rooted (comp :: top :: stack2) rest
        else cleanStack rooted stack2 rest
      | [] =>
        if rooted then cleanStack rooted [] rest
        else cleanStack rooted [comp] rest
    else cleanStack rooted (comp :: stack) rest

/-- Go path.Clean. -/
def pathClean (p : List Char) : List Char :=
  let rooted := (('/') :: []).isPrefixOf p
  let joined := List.intercalate (('/') :: [])
    (cleanStack rooted [] (splitOn '/' p)).reverse
  if rooted then '/' :: joined
  else if joined = [] then (".").data
  else joined

/-- Go path.Dir: Clean of everything up to and including the final
slash. -/
def pathDir (p : List Char) : List Char :=
  pathClean ((p.reverse.dropWhile (fun c => c ≠ '/')).reverse)

/-- The base RelativeURLs computes (rewrite.go lines 20-31): the upstream
URL with the filename stripped; a "." directory becomes empty. -/
def upstreamBaseOf (scheme host upath : List Char) : List Char :=
  scheme ++ ("://").data ++ host ++
    (if pathDir upath = ((".").data) then [] else pathDir upath)

/-- strings.TrimRight(s, "/"): all trailing slashes removed. -/
def trimRightSlash (s : List Char) : List Char :=
  (s.reverse.dropWhile (fun c => c == '/')).reverse

/-- resolveRelative (rewrite.go lines 90-99): strip one "./" prefix and
join relative targets onto the base. -/
def trimDotSlash (href : List Char) : List Char :=
  if ((("./").data)).isPrefixOf href then href.drop 2 else href

def resolveRelative (base href : List Char) : List Char :=
  if hasSubstr (trimDotSlash href) (("://").data) then trimDotSlash href
  else trimRightSlash base ++ '/' :: trimDotSlash href

/-- The absolute-URL skip of RelativeURLs (rewrite.go line 44). -/
def isAbsoluteHref (href : List Char) : Bool :=
  (("http://").data).isPrefixOf href || (("https://").data).isPrefixOf href ||
    (("//").data).isPrefixOf href

/-- The fragment/data/mailto skip (rewrite.go line 49). -/
def isSkippedHref (href : List Char) : Bool :=
  (("#").data).isPrefixOf href || (("data:").data).isPrefixOf href ||
    (("mailto:").data).isPrefixOf href

/-- The fragment suffix (from the first '#', rewrite.go lines 54-58). -/
def fragPart (href : List Char) : List Char :=
  href.drop ((href.takeWhile (fun c => c ≠ '#')).length)

/-- The value before the first '#'. -/
def preFrag (href : List Char) : List Char :=
  href.takeWhile (fun c => c ≠ '#')

/-- The query suffix (from the first '?' of the pre-fragment part,
rewrite.go lines 61-65). -/
def queryPart (href : List Char) : List Char :=
  (preFrag href).drop (((preFrag href).takeWhile (fun c => c ≠ '?')).length)

/-- The path component (before query and fragment). -/
def pathPart (href : List Char) : List Char :=
  (preFrag href).takeWhile (fun c => c ≠ '?')

/-- The cooked prefix for markdown links (rewrite.go lines 77-80). -/
def cookedPrefixOf (baseURL : List Char) : List Char :=
  if baseURL = [] then ('/') :: []
  else trimRightSlash baseURL ++ ('/') :: []

/-- The per-value transform of RelativeURLs (the ReplaceAllFunc closure,
rewrite.go lines 33-86), applied to one href/src attribute value. -/
def rewriteValue (base cookedPrefix href : List Char) : List Char :=
  if isAbsoluteHref href then href
  else if isSkippedHref href then href
  else if pathPart href = [] then href
  else if isMarkdownLink (pathPart href) then
    cookedPrefix ++ resolveRelative base (pathPart href) ++
      queryPart href ++ fragPart href
  else resolveRelative base (pathPart href) ++ queryPart href ++ fragPart href

/-- The whole per-value pipeline with the base computed from the
upstream URL as RelativeURLs does. -/
def relativeURLValue (scheme host upath baseURL href : List Char) : List Char :=
  rewriteValue (upstreamBaseOf scheme host upath) (cookedPrefixOf baseURL) href

/-- Claim C4 exactly as stated: absolute, fragment-only and mailto:/data:
values unchanged; every other value is split, resolved, prefixed exactly
when the resolved target is markdown-like, and re-assembled — with no
exception for values whose path component is empty. -/
def rewriteValueClaim (base cookedPrefix href : List Char) : List Char :=
  if isAbsoluteHref href then href
  else if isSkippedHref href then href
  else if isMarkdownLink (resolveRelative base (pathPart href)) then
    cookedPrefix ++ resolveRelative base (pathPart href) ++
      queryPart href ++ fragPart href
  else resolveRelative base (pathPart href) ++ queryPart href ++ fragPart href

/-- Claim C4 amended by the counterexample: additionally, values whose
path component is empty after removing query and fragment (query-only
values) are left unchanged. -/
def rewriteValueSpec (base cookedPrefix href : List Char) : List Char :=
  if isAbsoluteHref href then href
  else if isSkippedHref href then href
  else if pathPart href = [] then href
  else if isMarkdownLink (resolveRelative base (pathPart href)) then
    cookedPrefix ++ resolveRelative base (pathPart href) ++
      queryPart href ++ fragPart href
  else resolveRelative base (pathPart href) ++ queryPart href ++ fragPart href

theorem takeWhile_append_stop {p : Char → Bool} {c : Char} (hc : p c = false) :
    ∀ a b : List Char, (a ++ c :: b).takeWhile p = a.takeWhile p := by
  intro a
  induction a with
  | nil =>
    intro b
    simp [List.takeWhile_cons, hc]
  | cons d a ih =>
    intro b
    rcases hd : p d with _ | _
    · simp [List.takeWhile_cons, hd]
    · simp [List.takeWhile_cons, hd, ih b]

theorem lastSegRev_append (x y : List Char) :
    lastSegRev (x ++ '/' :: y) = lastSegRev y := by
  unfold lastSegRev
  have : (x ++ '/' :: y).reverse = y.reverse ++ '/' :: x.reverse := by
    simp
  rw [this, takeWhile_append_stop (by decide)]

theorem pathExt_append (x y : List Char) :
    pathExt (x ++ '/' :: y) = pathExt y := by
  unfold pathExt
  rw [lastSegRev_append]

theorem pathExt_trimDotSlash (href : List Char) :
    pathExt (trimDotSlash href) = pathExt href := by
  unfold trimDotSlash
  split_ifs with h
  · obtain ⟨t, rfl⟩ := prefixOf_ex.mp h
    have : (("./").data) ++ t = ['.'] ++ '/' :: t := rfl
    rw [this, pathExt_append]
    rfl
  · rfl

theorem isMarkdownLink_resolve (base p : List Char) :
    isMarkdownLink (resolveRelative base p) = isMarkdownLink p := by
  unfold isMarkdownLink resolveRelative
  split_ifs with h
  · rw [pathExt_trimDotSlash]
  · rw [pathExt_append, pathExt_trimDotSlash]

/-- C4 counterexample: with upstream https://cgit.internal/repo/plain/README.md
and no base URL, the query-only value "?x=1" is left unchanged by the
code, while the claim as stated — which splits every non-absolute,
non-fragment-only, non-mailto/data value and emits the resolved absolute
target with the query reattached — would produce
https://cgit.internal/repo/plain/?x=1. -/
theorem claim_C4_counterexample :
    relativeURLValue (("https").data) (("cgit.internal").data)
        (("/repo/plain/README.md").data) [] (("?x=1").data) = (("?x=1").data) ∧
      rewriteValueClaim
          (upstreamBaseOf (("https").data) (("cgit.internal").data)
            (("/repo/plain/README.md").data))
          (cookedPrefixOf []) (("?x=1").data) =
        (("https://cgit.internal/repo/plain/?x=1").data) ∧
      (("https://cgit.internal/repo/plain/?x=1").data) ≠ (("?x=1").data) := by
  refine ⟨by decide, by decide, by decide⟩

/-- C4 amended: for every href or src attribute value, absolute values
(http://, https://, protocol-relative //), fragment-only values and
mailto:/data: values are unchanged; values whose path component is empty
after removing query and fragment (query-only values) are also unchanged;
every other value is split into path, query and fragment, the path is
resolved against the upstream URL with its filename stripped, the result
is prefixed with "/" (or "<base-url>/" when a base URL is configured)
exactly when the resolved target is a markdown-like file and emitted as
the direct absolute upstream target otherwise, and the original query and
fragment are reattached. -/
theorem claim_C4_amended (scheme host upath baseURL href : List Char) :
    relativeURLValue scheme host upath baseURL href =
      rewriteValueSpec (upstreamBaseOf scheme host upath)
        (cookedPrefixOf baseURL) href := by
  unfold relativeURLValue rewriteValue rewriteValueSpec
  rw [isMarkdownLink_resolve]

/-- Concrete spec scenarios for the rewriter (spec §8), checked against
the embedded per-value transform. -/
theorem rewriteScenarios :
    relativeURLValue (("https").data) (("cgit.internal").data)
        (("/repo/plain/README.md").data) [] (("CONTRIBUTING.md").data) =
      (("/https://cgit.internal/repo/plain/CONTRIBUTING.md").data) ∧
    relativeURLValue (("https").data) (("cgit.internal").data)
        (("/repo/plain/README.md").data) [] (("./docs/arch.png").data) =
      (("https://cgit.internal/repo/plain/docs/arch.png").data) ∧
    relativeURLValue (("https").data) (("cgit.internal").data)
        (("/repo/plain/README.md").data) [] (("https://example.com/other").data) =
      (("https://example.com/other").data) ∧
    relativeURLValue (("https").data) (("cgit.internal").data)
        (("/repo/plain/README.md").data) [] (("#section").data) =
      (("#section").data) ∧
    relativeURLValue (("https").data) (("cgit.internal").data)
        (("/repo/plain/README.md").data) [] (("other.md#section").data) =
      (("/https://cgit.internal/repo/plain/other.md#section").data) := by
  refine ⟨by decide, by decide, by decide, by decide, by decide⟩

/-! ### Sanitizer model (claims C2 and C8)

The current sanitizer (src/unnamed/part_012) configures a bluemonday
policy — a permissive user-generated-content baseline with the explicit
allowances of §4.10 — and delegates the sanitisation itself to the
third-party bluemonday engine, which is not part of this repository's
sources.  The engine is therefore modelled from the specification: an
HTML tokenizer, a policy filter (allowed elements and attributes, on*
attributes stripped, dangerous href/src schemes rejected after
HTML-entity decoding, script/style content skipped), and a serializer
that escapes text and attribute values.  Definitions in this section are
marked "Modelled from the spec". -/

/-- Characters allowed in tag and attribute names (letters, digits,
hyphen); parsed names are lower-cased. -/
def isTagCharRaw (c : Char) : Bool :=
  (97 ≤ c.toNat && c.toNat ≤ 122) || (65 ≤ c.toNat && c.toNat ≤ 90) ||
    (48 ≤ c.toNat && c.toNat ≤ 57) || c == '-'

/-- Modelled from the spec: HTML escaping of one character as the
serializer emits text and attribute values. -/
def escChar (c : Char) : List Char :=
  if c = '&' then ("&amp;").data
  else if c = '<' then ("&lt;").data
  else if c = '>' then ("&gt;").data
  else if c = '"' then ("&quot;").data
  else [c]

/-- Modelled from the spec: HTML escaping of a string. -/
def esc : List Char → List Char
  | [] => []
  | c :: s => escChar c ++ esc s

/-- Hexadecimal digit test. -/
def isHexDigit (c : Char) : Bool :=
  isDigitChar c || ('a' ≤ c && c ≤ 'f') || ('A' ≤ c && c ≤ 'F')

/-- Numeric value of a hexadecimal digit. -/
def hexDigitVal (c : Char) : Nat :=
  if isDigitChar c then c.toNat - 48
  else if 'a' ≤ c && c ≤ 'f' then c.toNat - 87
  else if 'A' ≤ c && c ≤ 'F' then c.toNat - 55
  else 0

/-- Modelled from the spec: one numeric character reference, digits
followed by a semicolon; preLen counts the characters before the digits
("#" or "#x").  Returns the decoded character and how many characters
were consumed after the ampersand. -/
def parseNumEnt (base : Nat) (dig : Char → Bool) (rest : List Char)
    (preLen : Nat) : Option (Char × Nat) :=
  let ds := rest.takeWhile dig
  if ds = [] then none
  else
    match rest.drop ds.length with
    | ';' :: _ =>
      some (Char.ofNat (ds.foldl (fun n c => n * base + hexDigitVal c) 0),
        preLen + ds.length + 1)
    | _ => none

/-- Modelled from the spec: parse one HTML entity after an ampersand —
the named entities the serializer emits plus decimal and hexadecimal
character references. -/
def parseEntity (r : List Char) : Option (Char × Nat) :=
  if (("amp;").data).isPrefixOf r then some ('&', 4)
  else if (("lt;").data).isPrefixOf r then some ('<', 3)
  else if (("gt;").data).isPrefixOf r then some ('>', 3)
  else if (("quot;").data).isPrefixOf r then some ('"', 5)
  else
    match r with
    | '#' :: 'x' :: rest => parseNumEnt 16 isHexDigit rest 2
    | '#' :: 'X' :: rest => parseNumEnt 16 isHexDigit rest 2
    | '#' :: rest => parseNumEnt 10 isDigitChar rest 1
    | _ => none

/-- Modelled from the spec: single-pass HTML-entity decoding. -/
def decodeEnt : List Char → List Char
  | [] => []
  | c :: r =>
    if c = '&' then
      match parseEntity r with
      | some (d, k) => d :: decodeEnt (r.drop k)
      | none => '&' :: decodeEnt r
    else c :: decodeEnt r
termination_by s => s.length
decreasing_by
  · simp only [List.length_cons, List.length_drop]
    omega
  · simp only [List.length_cons]
    omega
  · simp only [List.length_cons]
    omega

theorem decodeEnt_nil : decodeEnt [] = [] := by
  rw [decodeEnt.eq_def]

theorem decodeEnt_cons_ne {c : Char} (r : List Char) (h : ¬ c = '&') :
    decodeEnt (c :: r) = c :: decodeEnt r := by
  conv_lhs => rw [decodeEnt.eq_def]
  simp only [if_neg h]

theorem decodeEnt_amp_some {r : List Char} {d : Char} {k : Nat}
    (h : parseEntity r = some (d, k)) :
    decodeEnt ('&' :: r) = d :: decodeEnt (r.drop k) := by
  conv_lhs => rw [decodeEnt.eq_def]
  simp only [if_pos, h]

theorem prefixOf_append (l t : List Char) : l.isPrefixOf (l ++ t) = true :=
  prefixOf_ex.mpr ⟨t, rfl⟩

theorem prefixOf_cons_ne {a b : Char} (l m : List Char) (h : ¬ a = b) :
    (a :: l).isPrefixOf (b :: m) = false := by
  simp [List.isPrefixOf, h]

theorem decode_esc : ∀ s : List Char, decodeEnt (esc s) = s := by
  intro s
  induction s with
  | nil => exact decodeEnt_nil
  | cons c s ih =>
    show decodeEnt (escChar c ++ esc s) = c :: s
    unfold escChar
    split_ifs with h1 h2 h3 h4
    · subst h1
      rw [show ("&amp;").data ++ esc s = '&' :: (("amp;").data ++ esc s) from rfl]
      rw [decodeEnt_amp_some (by
        unfold parseEntity
        rw [if_pos (prefixOf_append (("amp;").data) (esc s))])]
      rw [show (("amp;").data ++ esc s).drop 4 = esc s from
        List.drop_left (("amp;").data) (esc s), ih]
    · subst h2
      rw [show ("&lt;").data ++ esc s = '&' :: (("lt;").data ++ esc s) from rfl]
      rw [decodeEnt_amp_some (d := '<') (k := 3) (by
        unfold parseEntity
        rw [if_neg (by rw [show ("lt;").data ++ esc s = 'l' :: (("t;").data ++ esc s) from rfl,
              prefixOf_cons_ne _ _ (by decide)]; exact Bool.false_ne_true)]
        rw [if_pos (prefixOf_append (("lt;").data) (esc s))])]
      rw [show (("lt;").data ++ esc s).drop 3 = esc s from
        List.drop_left (("lt;").data) (esc s), ih]
    · subst h3
      rw [show ("&gt;").data ++ esc s = '&' :: (("gt;").data ++ esc s) from rfl]
      rw [decodeEnt_amp_some (d := '>') (k := 3) (by
        unfold parseEntity
        rw [if_neg (by rw [show ("gt;").data ++ esc s = 'g' :: (("t;").data ++ esc s) from rfl,
              prefixOf_cons_ne _ _ (by decide)]; exact Bool.false_ne_true)]
        rw [if_neg (by rw [show ("gt;").data ++ esc s = 'g' :: (("t;").data ++ esc s) from rfl,
              prefixOf_cons_ne _ _ (by decide)]; exact Bool.false_ne_true)]
        rw [if_pos (prefixOf_append (("gt;").data) (esc s))])]
      rw [show (("gt;").data ++ esc s).drop 3 = esc s from
        List.drop_left (("gt;").data) (esc s), ih]
    · subst h4
      rw [show ("&quot;").data ++ esc s = '&' :: (("quot;").data ++ esc s) from rfl]
      rw [decodeEnt_amp_some (d := '"') (k := 5) (by
        unfold parseEntity
        rw [if_neg (by rw [show ("quot;").data ++ esc s = 'q' :: (("uot;").data ++ esc s) from rfl,
              prefixOf_cons_ne _ _ (by decide)]; exact Bool.false_ne_true)]
        rw [if_neg (by rw [show ("quot;").data ++ esc s = 'q' :: (("uot;").data ++ esc s) from rfl,
              prefixOf_cons_ne _ _ (by decide)]; exact Bool.false_ne_true)]
        rw [if_neg (by rw [show ("quot;").data ++ esc s = 'q' :: (("uot;").data ++ esc s) from rfl,
              prefixOf_cons_ne _ _ (by decide)]; exact Bool.false_ne_true)]
        rw [if_pos (prefixOf_append (("quot;").data) (esc s))])]
      rw [show (("quot;").data ++ esc s).drop 5 = esc s from
        List.drop_left (("quot;").data) (esc s), ih]
    · rw [show [c] ++ esc s = c :: esc s from rfl, decodeEnt_cons_ne _ h1, ih]

theorem dropWhileLen (p : Char → Bool) :
    ∀ l : List Char, (l.dropWhile p).length ≤ l.length := by
  intro l
  induction l with
  | nil => simp
  | cons a l ih =>
    rw [List.dropWhile_cons]
    split_ifs with h
    · exact Nat.le_trans ih (by simp)
    · simp

/-- Modelled from the spec: an HTML token — a text run, an opening tag
with its attributes (name/value pairs), or a closing tag.  Text and
attribute values are stored entity-decoded. -/
inductive Tok where
  | text (s : List Char)
  | tagOpen (name : List Char) (attrs : List (List Char × List Char))
  | tagClose (name : List Char)
deriving DecidableEq

/-- Modelled from the spec: attribute parsing inside a tag — any number
of space-separated name="value" pairs followed by the closing angle
bracket.  Returns the attributes (names lower-cased, values decoded) and
the input after the bracket. -/
def parseAttrs : List Char → Option (List (List Char × List Char) × List Char)
  | [] => none
  | '>' :: r => some ([], r)
  | ' ' :: r => parseAttrs r
  | c :: r =>
    if isTagCharRaw c then
      match hr : r.dropWhile isTagCharRaw with
      | '=' :: '"' :: r2 =>
        match hq : r2.dropWhile (fun d => d ≠ '"') with
        | '"' :: r3 =>
          match parseAttrs r3 with
          | some (attrs, r4) =>
            some (((c :: r.takeWhile isTagCharRaw).map lowerChar,
              decodeEnt (r2.takeWhile (fun d => d ≠ '"'))) :: attrs, r4)
          | none => none
        | _ => none
      | _ => none
    else none
termination_by l => l.length
decreasing_by
  · simp only [List.length_cons]
    omega
  · simp only [List.length_cons]
    have h1 : r2.length + 1 ≤ r.length := by
      have := dropWhileLen isTagCharRaw r
      rw [hr] at this
      simp at this
      omega
    have h2 : r3.length + 1 ≤ r2.length := by
      have := dropWhileLen (fun d => d ≠ '"') r2
      rw [hq] at this
      simp at this
      omega
    omega

/-- Modelled from the spec: parse one tag after the opening angle
bracket; none when the input is not a well-formed tag (the bracket is
then treated as text). -/
def parseTag (r : List Char) : Option (Tok × List Char) :=
  match r with
  | '/' :: r1 =>
    if (r1.takeWhile isTagCharRaw) = [] then none
    else
      match r1.dropWhile isTagCharRaw with
      | '>' :: r2 => some (.tagClose ((r1.takeWhile isTagCharRaw).map lowerChar), r2)
      | _ => none
  | _ =>
    if (r.takeWhile isTagCharRaw) = [] then none
    else
      match parseAttrs (r.dropWhile isTagCharRaw) with
      | some (attrs, r2) =>
        some (.tagOpen ((r.takeWhile isTagCharRaw).map lowerChar) attrs, r2)
      | none => none

theorem parseAttrs_suffix_le :
    ∀ (n : Nat) (l : List Char), l.length ≤ n →
      ∀ attrs r, parseAttrs l = some (attrs, r) → r.length ≤ l.length := by
  intro n
  induction n with
  | zero =>
    intro l hl attrs r h
    cases l with
    | nil => rw [parseAttrs.eq_def] at h; cases h
    | cons c r0 => simp at hl
  | succ n ih =>
    intro l hl attrs r h
    rw [parseAttrs.eq_def] at h
    split at h
    · cases h
    · injection h with h
      injection h with h1 h2
      subst h2
      simp
    · rename_i r0
      have := ih r0 (by simp at hl; omega) attrs r h
      simp only [List.length_cons]
      omega
    · rename_i c r0 hne1 hne2
      split at h
      · split at h
        · rename_i r2 hr
          split at h
          · rename_i r3 hq
            split at h
            · rename_i attrs0 r4 hrec
              injection h with h
              injection h with h1 h2
              subst h2
              have hlen2 : r2.length + 1 ≤ r0.length := by
                have := dropWhileLen isTagCharRaw r0
                rw [hr] at this
                simp at this
                omega
              have hlen3 : r3.length + 1 ≤ r2.length := by
                have := dropWhileLen (fun d => decide (d ≠ '"')) r2
                rw [hq] at this
                simp at this
                omega
              have := ih r3 (by simp at hl; omega) attrs0 r4 hrec
              simp only [List.length_cons]
              omega
            · cases h
          · cases h
        · cases h
      · cases h

theorem parseTag_suffix_le (r : List Char) (t : Tok) (r2 : List Char)
    (h : parseTag r = some (t, r2)) : r2.length ≤ r.length := by
  rw [parseTag.eq_def] at h
  split at h
  · rename_i r1
    split at h
    · cases h
    · split at h
      · rename_i r3 hr
        injection h with h
        injection h with h1 h2
        subst h2
        have := dropWhileLen isTagCharRaw r1
        rw [hr] at this
        simp only [List.length_cons] at this ⊢
        omega
      · cases h
  · split at h
    · cases h
    · split at h
      · rename_i attrs r3 hrec
        injection h with h
        injection h with h1 h2
        subst h2
        have h1 := parseAttrs_suffix_le (r.dropWhile isTagCharRaw).length
          (r.dropWhile isTagCharRaw) (Nat.le_refl _) attrs _ hrec
        have h2 := dropWhileLen isTagCharRaw r
        omega
      · cases h

/-- Modelled from the spec: prepend one character to the token stream as
text, merging into a leading text token. -/
def consText (c : Char) (ts : List Tok) : List Tok :=
  match ts with
  | .text s :: rest => .text (c :: s) :: rest
  | _ => .text [c] :: ts

/-- Modelled from the spec: the HTML tokenizer.  An angle bracket opens a
tag when a tag parses there; otherwise it is ordinary text.  Text tokens
carry the raw (still entity-encoded) characters. -/
def tokenizeRaw : List Char → List Tok
  | [] => []
  | '<' :: r =>
    match h : parseTag r with
    | some (t, r2) => t :: tokenizeRaw r2
    | none => consText '<' (tokenizeRaw r)
  | c :: r => consText c (tokenizeRaw r)
termination_by l => l.length
decreasing_by
  · have := parseTag_suffix_le _ _ _ h
    simp only [List.length_cons]
    omega
  · simp only [List.length_cons]
    omega
  · simp only [List.length_cons]
    omega

/-- Modelled from the spec: decode the entity-encoded text runs; tags are
already decoded by the tag parser. -/
def decodeTok : Tok → Tok
  | .text s => .text (decodeEnt s)
  | t => t

def decodeTexts (ts : List Tok) : List Tok := ts.map decodeTok

/-- The token stream of a byte string: tags parsed, text decoded. -/
def tokenize (s : List Char) : List Tok := decodeTexts (tokenizeRaw s)

/-- Modelled from the spec: the allowed elements — a permissive
user-generated-content baseline (headings, paragraphs, lists, tables,
links, images, code blocks) plus the explicit allowances of part_012:
button, del/ins, dl/dt/dd, details/summary, and input for GFM task-list
checkboxes. -/
def allowedElements : List (List Char) :=
  [("a").data, ("abbr").data, ("b").data, ("blockquote").data, ("br").data,
   ("button").data, ("caption").data, ("cite").data, ("code").data,
   ("dd").data, ("del").data, ("details").data, ("div").data, ("dl").data,
   ("dt").data, ("em").data, ("figcaption").data, ("figure").data,
   ("h1").data, ("h2").data, ("h3").data, ("h4").data, ("h5").data,
   ("h6").data, ("hr").data, ("i").data, ("img").data, ("input").data,
   ("ins").data, ("kbd").data, ("li").data, ("mark").data, ("ol").data,
   ("p").data, ("pre").data, ("q").data, ("samp").data, ("small").data,
   ("span").data, ("strong").data, ("sub").data, ("summary").data,
   ("sup").data, ("table").data, ("tbody").data, ("td").data,
   ("tfoot").data, ("th").data, ("thead").data, ("tr").data, ("ul").data,
   ("var").data]

/-- Modelled from the spec: elements whose content is dropped outright
(bluemonday skips the contents of script and style). -/
def skipContentElements : List (List Char) := [("script").data, ("style").data]

/-- Modelled from the spec: a URI value whose scheme, after HTML-entity
decoding (already performed by the tokenizer), is javascript, vbscript,
or data:text/html. -/
def dangerousScheme (v : List Char) : Bool :=
  (("javascript:").data).isPrefixOf (lowerStr v) ||
    (("vbscript:").data).isPrefixOf (lowerStr v) ||
    (("data:text/html").data).isPrefixOf (lowerStr v)

/-- Modelled from the spec: globally allowed attributes — id, class,
role, title, and data-* (part_012 lines 20-32). -/
def allowedGlobalAttr (n : List Char) : Bool :=
  n == ("id").data || n == ("class").data || n == ("role").data ||
    n == ("title").data ||
    ((("data-").data).isPrefixOf n && decide (5 < n.length))

/-- Modelled from the spec: per-element attributes — href on anchors,
src/alt on images, type/checked/disabled on inputs (GFM task lists),
tabindex on pre (part_012 lines 34-39 and the UGC baseline). -/
def allowedElemAttr (el n : List Char) : Bool :=
  (el == ("a").data && n == ("href").data) ||
  (el == ("img").data && (n == ("src").data || n == ("alt").data)) ||
  (el == ("input").data &&
    (n == ("type").data || n == ("checked").data || n == ("disabled").data)) ||
  (el == ("pre").data && n == ("tabindex").data)

/-- Modelled from the spec: keep an attribute iff its name is allowed for
the element and, for href/src, its (decoded) value does not carry a
dangerous scheme. -/
def attrOk (el : List Char) (a : List Char × List Char) : Bool :=
  (allowedGlobalAttr a.1 || allowedElemAttr el a.1) &&
    (if a.1 == ("href").data || a.1 == ("src").data
     then !(dangerousScheme a.2) else true)

def filterAttrs (el : List Char) (attrs : List (List Char × List Char)) :
    List (List Char × List Char) :=
  attrs.filter (attrOk el)

/-- Modelled from the spec: the policy filter over the token stream.  The
second argument is the element whose content is currently being skipped
(script/style).  Banned tags are dropped; allowed tags keep only their
allowed attributes. -/
def filterToks : List Tok → Option (List Char) → List Tok
  | [], _ => []
  | t :: ts, some nm =>
    match t with
    | .tagClose nm2 =>
      if nm2 = nm then filterToks ts none else filterToks ts (some nm)
    | _ => filterToks ts (some nm)
  | t :: ts, none =>
    match t with
    | .text s => .text s :: filterToks ts none
    | .tagOpen nm attrs =>
      if skipContentElements.contains nm then filterToks ts (some nm)
      else if allowedElements.contains nm then
        .tagOpen nm (filterAttrs nm attrs) :: filterToks ts none
      else filterToks ts none
    | .tagClose nm =>
      if allowedElements.contains nm then .tagClose nm :: filterToks ts none
      else filterToks ts none

/-- Modelled from the spec: serialize one attribute, escaping the
value. -/
def serializeAttr (a : List Char × List Char) : List Char :=
  ' ' :: (a.1 ++ '=' :: '"' :: (esc a.2 ++ ['"']))

/-- Modelled from the spec: serialize one token, escaping text. -/
def serializeTok : Tok → List Char
  | .text s => esc s
  | .tagOpen nm attrs => '<' :: (nm ++ ((attrs.map serializeAttr).flatten ++ ['>']))
  | .tagClose nm => '<' :: '/' :: (nm ++ ['>'])

def serialize (ts : List Tok) : List Char := (ts.map serializeTok).flatten

/-- Modelled from the spec: the sanitizer — tokenize, filter by the
policy, serialize.  This models sanitize.HTML of src/unnamed/part_012
(policy configuration) together with bluemonday's sanitisation engine,
which is not part of the repository sources. -/
def sanitizeHTML (input : List Char) : List Char :=
  serialize (filterToks (tokenize input) none)

/-! ### Well-formed tokens and parser output shape -/

theorem charOfNatToNat (n : Nat) (h : n < 55296) : (Char.ofNat n).toNat = n := by
  unfold Char.ofNat
  split
  · rfl
  · rename_i hv
    exact absurd (Or.inl h) hv

theorem lowerChar_toNat_upper {c : Char} (h : 65 ≤ c.toNat ∧ c.toNat ≤ 90) :
    (lowerChar c).toNat = c.toNat + 32 := by
  unfold lowerChar
  rw [if_pos h]
  exact charOfNatToNat _ (by omega)

theorem lowerChar_eq_of_not_upper {c : Char} (h : ¬(65 ≤ c.toNat ∧ c.toNat ≤ 90)) :
    lowerChar c = c := by
  unfold lowerChar
  rw [if_neg h]

theorem lowerChar_tagchar {c : Char} (h : isTagCharRaw c = true) :
    isTagCharRaw (lowerChar c) = true ∧ lowerChar (lowerChar c) = lowerChar c := by
  by_cases hu : 65 ≤ c.toNat ∧ c.toNat ≤ 90
  · have ht := lowerChar_toNat_upper hu
    constructor
    · unfold isTagCharRaw
      simp only [Bool.or_eq_true, Bool.and_eq_true, decide_eq_true_eq]
      left
      omega
    · exact lowerChar_eq_of_not_upper (by omega)
  · rw [lowerChar_eq_of_not_upper hu]
    exact ⟨h, lowerChar_eq_of_not_upper hu⟩

/-- A well-formed emitted name: non-empty, made of name characters, and
already lower-cased. -/
def nameOk (nm : List Char) : Prop :=
  nm ≠ [] ∧ ∀ c ∈ nm, isTagCharRaw c = true ∧ lowerChar c = c

/-- Well-formed tokens: text runs non-empty, names well-formed. -/
def WfTok : Tok → Prop
  | .text s => s ≠ []
  | .tagOpen nm attrs => nameOk nm ∧ ∀ a ∈ attrs, nameOk a.1
  | .tagClose nm => nameOk nm

theorem mapLower_nameOk {l : List Char} (hne : l ≠ [])
    (h : ∀ c ∈ l, isTagCharRaw c = true) : nameOk (l.map lowerChar) := by
  constructor
  · simpa using hne
  · intro c hc
    rw [List.mem_map] at hc
    obtain ⟨d, hd, rfl⟩ := hc
    exact lowerChar_tagchar (h d hd)

theorem mem_takeWhile_pred {p : Char → Bool} :
    ∀ {l : List Char} {c : Char}, c ∈ l.takeWhile p → p c = true := by
  intro l
  induction l with
  | nil => intro c hc; cases hc
  | cons a l ih =>
    intro c hc
    rw [List.takeWhile_cons] at hc
    split_ifs at hc with ha
    · rcases List.mem_cons.mp hc with rfl | hc
      · exact ha
      · exact ih hc
    · cases hc

theorem parseAttrs_wf :
    ∀ (n : Nat) (l : List Char), l.length ≤ n →
      ∀ attrs r, parseAttrs l = some (attrs, r) →
        ∀ a ∈ attrs, nameOk a.1 := by
  intro n
  induction n with
  | zero =>
    intro l hl attrs r h
    cases l with
    | nil => rw [parseAttrs.eq_def] at h; cases h
    | cons c r0 => simp at hl
  | succ n ih =>
    intro l hl attrs r h
    rw [parseAttrs.eq_def] at h
    split at h
    · cases h
    · injection h with h
      injection h with h1 h2
      subst h1
      intro a ha
      cases ha
    · rename_i r0
      exact ih r0 (by simp at hl; omega) attrs r h
    · rename_i c r0 hne1 hne2
      split at h
      · rename_i hc
        split at h
        · rename_i r2 hr
          split at h
          · rename_i r3 hq
            split at h
            · rename_i attrs0 r4 hrec
              injection h with h
              injection h with h1 h2
              subst h1
              intro a ha
              rcases List.mem_cons.mp ha with rfl | ha
              · refine mapLower_nameOk (by simp) ?_
                intro d hd
                rcases List.mem_cons.mp hd with rfl | hd
                · exact hc
                · exact mem_takeWhile_pred hd
              · have hlen2 : r2.length + 1 ≤ r0.length := by
                  have := dropWhileLen isTagCharRaw r0
                  rw [hr] at this
                  simp at this
                  omega
                have hlen3 : r3.length + 1 ≤ r2.length := by
                  have := dropWhileLen (fun d => decide (d ≠ '"')) r2
                  rw [hq] at this
                  simp at this
                  omega
                exact ih r3 (by simp at hl; omega) attrs0 r4 hrec a ha
            · cases h
          · cases h
        · cases h
      · cases h

theorem parseTag_wf (r : List Char) (t : Tok) (r2 : List Char)
    (h : parseTag r = some (t, r2)) : WfTok t ∧ (∀ s, t ≠ .text s) := by
  rw [parseTag.eq_def] at h
  split at h
  · rename_i r1
    split at h
    · cases h
    · rename_i hne
      split at h
      · rename_i r3 hr
        injection h with h
        injection h with h1 h2
        subst h1
        refine ⟨?_, by intro s hs; cases hs⟩
        show nameOk _
        exact mapLower_nameOk (by simpa using hne) (fun c hc => mem_takeWhile_pred hc)
      · cases h
  · split at h
    · cases h
    · rename_i hne
      split at h
      · rename_i attrs r3 hrec
        injection h with h
        injection h with h1 h2
        subst h1
        refine ⟨?_, by intro s hs; cases hs⟩
        refine ⟨mapLower_nameOk (by simpa using hne) (fun c hc => mem_takeWhile_pred hc), ?_⟩
        exact parseAttrs_wf _ _ (Nat.le_refl _) attrs _ hrec
      · cases h

theorem consText_wf {c : Char} {ts : List Tok}
    (h : ∀ t ∈ ts, WfTok t) : ∀ t ∈ consText c ts, WfTok t := by
  unfold consText
  split
  · rename_i s rest
    intro t ht
    rcases List.mem_cons.mp ht with rfl | ht
    · show (c :: s) ≠ []
      simp
    · exact h t (List.mem_cons_of_mem _ ht)
  · intro t ht
    rcases List.mem_cons.mp ht with rfl | ht
    · show ([c] : List Char) ≠ []
      simp
    · exact h t ht

theorem tokenizeRaw_wf :
    ∀ (n : Nat) (l : List Char), l.length ≤ n →
      ∀ t ∈ tokenizeRaw l, WfTok t := by
  intro n
  induction n with
  | zero =>
    intro l hl t ht
    cases l with
    | nil => rw [tokenizeRaw.eq_def] at ht; cases ht
    | cons c r0 => simp at hl
  | succ n ih =>
    intro l hl t ht
    rw [tokenizeRaw.eq_def] at ht
    split at ht
    · cases ht
    · rename_i r0
      split at ht
      · rename_i tk r2 hp
        rcases List.mem_cons.mp ht with rfl | ht
        · exact (parseTag_wf r0 t r2 hp).1
        · have := parseTag_suffix_le r0 tk r2 hp
          exact ih r2 (by simp at hl; omega) t ht
      · exact consText_wf (fun u hu => ih r0 (by simp at hl; omega) u hu) t ht
    · rename_i c r0 hne
      exact consText_wf (fun u hu => ih r0 (by simp at hl; omega) u hu) t ht

theorem decodeEnt_amp_none {r : List Char} (h : parseEntity r = none) :
    decodeEnt ('&' :: r) = '&' :: decodeEnt r := by
  conv_lhs => rw [decodeEnt.eq_def]
  simp only [if_pos, h]

theorem decodeEnt_ne_nil {s : List Char} (h : s ≠ []) : decodeEnt s ≠ [] := by
  cases s with
  | nil => exact absurd rfl h
  | cons c r =>
    by_cases hc : c = '&'
    · subst hc
      rcases hp : parseEntity r with _ | ⟨d, k⟩
      · rw [decodeEnt_amp_none hp]
        simp
      · rw [decodeEnt_amp_some hp]
        simp
    · rw [decodeEnt_cons_ne r hc]
      simp

theorem tokenize_wf (s : List Char) : ∀ t ∈ tokenize s, WfTok t := by
  intro t ht
  unfold tokenize decodeTexts at ht
  rw [List.mem_map] at ht
  obtain ⟨u, hu, rfl⟩ := ht
  have hw := tokenizeRaw_wf s.length s (Nat.le_refl _) u hu
  cases u with
  | text a =>
    show decodeEnt a ≠ []
    exact decodeEnt_ne_nil hw
  | tagOpen nm attrs => exact hw
  | tagClose nm => exact hw

/-! ### Serializer/tokenizer round trip -/

theorem map_lower_fixed {nm : List Char} (h : ∀ c ∈ nm, lowerChar c = c) :
    nm.map lowerChar = nm := by
  induction nm with
  | nil => rfl
  | cons a l ih =>
    simp only [List.map_cons]
    rw [h a (List.mem_cons_self _ _), ih (fun c hc => h c (List.mem_cons_of_mem _ hc))]

theorem takedrop_all_append {p : Char → Bool} :
    ∀ (l : List Char) {c : Char} (r : List Char),
      (∀ d ∈ l, p d = true) → p c = false →
      (l ++ c :: r).takeWhile p = l ∧ (l ++ c :: r).dropWhile p = c :: r := by
  intro l
  induction l with
  | nil =>
    intro c r _ hc
    constructor
    · simp [List.takeWhile_cons, hc]
    · simp [List.dropWhile_cons, hc]
  | cons a l ih =>
    intro c r hall hc
    have ha : p a = true := hall a (List.mem_cons_self _ _)
    obtain ⟨h1, h2⟩ := ih r (fun d hd => hall d (List.mem_cons_of_mem _ hd)) hc
    constructor
    · simp [List.cons_append, List.takeWhile_cons, ha, h1]
    · simp [List.cons_append, List.dropWhile_cons, ha, h2]

theorem esc_ne_nil {s : List Char} (h : s ≠ []) : esc s ≠ [] := by
  cases s with
  | nil => exact absurd rfl h
  | cons c r =>
    show escChar c ++ esc r ≠ []
    unfold escChar
    split_ifs <;> simp

theorem escChar_no_special {c d : Char} (h : d ∈ escChar c) :
    d ≠ '<' ∧ d ≠ '>' ∧ d ≠ '"' := by
  unfold escChar at h
  split_ifs at h with h1 h2 h3 h4
  · fin_cases h <;> refine ⟨by decide, by decide, by decide⟩
  · fin_cases h <;> refine ⟨by decide, by decide, by decide⟩
  · fin_cases h <;> refine ⟨by decide, by decide, by decide⟩
  · fin_cases h <;> refine ⟨by decide, by decide, by decide⟩
  · rcases List.mem_singleton.mp h with rfl
    refine ⟨?_, ?_, ?_⟩
    · intro hx; exact h2 hx
    · intro hx; exact h3 hx
    · intro hx; exact h4 hx

theorem esc_no_special {s : List Char} {d : Char} (h : d ∈ esc s) :
    d ≠ '<' ∧ d ≠ '>' ∧ d ≠ '"' := by
  induction s with
  | nil => cases h
  | cons c r ih =>
    rcases List.mem_append.mp h with h | h
    · exact escChar_no_special h
    · exact ih h

/-- The serialized attribute list. -/
def serializeAttrsL (attrs : List (List Char × List Char)) : List Char :=
  (attrs.map serializeAttr).flatten

theorem parseAttrs_close (r : List Char) : parseAttrs ('>' :: r) = some ([], r) := by
  rw [parseAttrs.eq_def]
  split
  · rename_i h
    cases h
  · rename_i r0 h
    injection h with h1 h2
    subst h2
    rfl
  · rename_i r0 h
    injection h with h1 h2
    exact absurd h1 (by decide)
  · rename_i c r0 hg1 hg2 h
    injection h with h1 h2
    subst h1
    exact absurd rfl hg1

theorem parseAttrs_space (r : List Char) : parseAttrs (' ' :: r) = parseAttrs r := by
  rw [parseAttrs.eq_def]
  split
  · rename_i h
    cases h
  · rename_i r0 h
    injection h with h1 h2
    exact absurd h1 (by decide)
  · rename_i r0 h
    injection h with h1 h2
    subst h2
    rfl
  · rename_i c r0 hg1 hg2 h
    injection h with h1 h2
    subst h1
    exact absurd rfl hg2

theorem tagchar_ne_gt {c : Char} (h : isTagCharRaw c = true) : ¬ c = '>' := by
  intro hc
  subst hc
  exact absurd h (by decide)

theorem tagchar_ne_space {c : Char} (h : isTagCharRaw c = true) : ¬ c = ' ' := by
  intro hc
  subst hc
  exact absurd h (by decide)

theorem parseAttrs_rt :
    ∀ (attrs : List (List Char × List Char)) (r : List Char),
      (∀ a ∈ attrs, nameOk a.1) →
      parseAttrs (serializeAttrsL attrs ++ '>' :: r) = some (attrs, r) := by
  intro attrs
  induction attrs with
  | nil =>
    intro r _
    exact parseAttrs_close r
  | cons a as ih =>
    intro r hwf
    obtain ⟨hne, hchars⟩ := hwf a (List.mem_cons_self _ _)
    rcases a with ⟨n, v⟩
    rcases hn : n with _ | ⟨c, n1⟩
    · exact absurd hn hne
    subst hn
    have hc : isTagCharRaw c = true := (hchars c (List.mem_cons_self _ _)).1
    have hn1 : ∀ d ∈ n1, isTagCharRaw d = true :=
      fun d hd => (hchars d (List.mem_cons_of_mem _ hd)).1
    have hgoal : serializeAttrsL ((c :: n1, v) :: as) ++ '>' :: r =
        ' ' :: c :: (n1 ++ '=' :: '"' ::
          (esc v ++ '"' :: (serializeAttrsL as ++ '>' :: r))) := by
      unfold serializeAttrsL serializeAttr
      simp [List.cons_append, List.append_assoc]
    rw [hgoal, parseAttrs_space, parseAttrs.eq_def]
    have hdrop : (n1 ++ '=' :: '"' ::
        (esc v ++ '"' :: (serializeAttrsL as ++ '>' :: r))).dropWhile isTagCharRaw =
        '=' :: '"' :: (esc v ++ '"' :: (serializeAttrsL as ++ '>' :: r)) :=
      (takedrop_all_append n1 _ hn1 (by decide)).2
    have htake : (n1 ++ '=' :: '"' ::
        (esc v ++ '"' :: (serializeAttrsL as ++ '>' :: r))).takeWhile isTagCharRaw = n1 :=
      (takedrop_all_append n1 _ hn1 (by decide)).1
    have hdropq : (esc v ++ '"' :: (serializeAttrsL as ++ '>' :: r)).dropWhile
        (fun d => decide (d ≠ '"')) = '"' :: (serializeAttrsL as ++ '>' :: r) :=
      (takedrop_all_append (esc v) _
        (fun d hd => by simpa using (esc_no_special hd).2.2) (by decide)).2
    have htakeq : (esc v ++ '"' :: (serializeAttrsL as ++ '>' :: r)).takeWhile
        (fun d => decide (d ≠ '"')) = esc v :=
      (takedrop_all_append (esc v) _
        (fun d hd => by simpa using (esc_no_special hd).2.2) (by decide)).1
    split
    · rename_i h
      cases h
    · rename_i r0 h
      injection h with h1 h2
      exact absurd h1.symm (fun hx => tagchar_ne_gt hc hx.symm)
    · rename_i r0 h
      injection h with h1 h2
      exact absurd h1.symm (fun hx => tagchar_ne_space hc hx.symm)
    · rename_i c0 r0 hg1 hg2 h
      injection h with h1 h2
      subst h1
      subst h2
      rw [if_pos hc]
      split
      · rename_i r2 hr
        rw [hdrop] at hr
        injection hr with hr1 hr
        injection hr with hr2 hr
        subst hr
        split
        · rename_i r3 hq
          rw [hdropq] at hq
          injection hq with hq1 hq
          subst hq
          rw [ih r (fun b hb => hwf b (List.mem_cons_of_mem _ hb))]
          have hmap : (c :: n1).map lowerChar = c :: n1 :=
            map_lower_fixed (fun d hd => (hchars d hd).2)
          have htakeq2 : (esc v ++ '"' :: (serializeAttrsL as ++ '>' :: r)).takeWhile
              (fun d => !decide (d = '"')) = esc v := by
            have h := htakeq
            simp only [ne_eq, decide_not] at h
            exact h
          simp [htake, htakeq, htakeq2, decode_esc, hmap]
        · rename_i hq
          exact (hq _ hdropq).elim
      · rename_i hr
        exact (hr _ hdrop).elim

theorem serializeAttrsL_head :
    ∀ (attrs : List (List Char × List Char)) (r : List Char),
      ∃ d rest, serializeAttrsL attrs ++ '>' :: r = d :: rest ∧
        isTagCharRaw d = false ∧ ¬ d = '/' := by
  intro attrs r
  cases attrs with
  | nil => exact ⟨'>', r, rfl, by decide, by decide⟩
  | cons a as =>
    refine ⟨' ', (a.1 ++ '=' :: '"' :: (esc a.2 ++ ['"'])) ++
      (serializeAttrsL as ++ '>' :: r), ?_, by decide, by decide⟩
    unfold serializeAttrsL serializeAttr
    simp [List.cons_append, List.append_assoc]

theorem tagchar_not_slash {c : Char} (h : isTagCharRaw c = true) : ¬ c = '/' := by
  intro hc
  subst hc
  exact absurd h (by decide)

theorem parseTag_rt_open (nm : List Char) (attrs : List (List Char × List Char))
    (r : List Char) (hnm : nameOk nm) (hattrs : ∀ a ∈ attrs, nameOk a.1) :
    parseTag (nm ++ (serializeAttrsL attrs ++ '>' :: r)) =
      some (.tagOpen nm attrs, r) := by
  obtain ⟨hne, hchars⟩ := hnm
  obtain ⟨d, rest, hdr, hd, hds⟩ := serializeAttrsL_head attrs r
  rcases hn : nm with _ | ⟨c, nm1⟩
  · exact absurd hn hne
  subst hn
  have hc : isTagCharRaw c = true := (hchars c (List.mem_cons_self _ _)).1
  have hall : ∀ e ∈ c :: nm1, isTagCharRaw e = true := fun e he => (hchars e he).1
  have heq : (c :: nm1) ++ (serializeAttrsL attrs ++ '>' :: r) =
      (c :: nm1) ++ d :: rest := by rw [hdr]
  have htake : ((c :: nm1) ++ (serializeAttrsL attrs ++ '>' :: r)).takeWhile
      isTagCharRaw = c :: nm1 := by
    rw [heq]
    exact (takedrop_all_append (c :: nm1) rest hall hd).1
  have hdrop : ((c :: nm1) ++ (serializeAttrsL attrs ++ '>' :: r)).dropWhile
      isTagCharRaw = serializeAttrsL attrs ++ '>' :: r := by
    rw [heq, (takedrop_all_append (c :: nm1) rest hall hd).2, ← hdr]
  rw [parseTag.eq_def]
  split
  · rename_i r1 h
    rw [List.cons_append] at h
    injection h with h1 h2
    exact absurd h1.symm (fun hx => tagchar_not_slash hc hx.symm)
  · rename_i hguard
    rw [if_neg (by rw [htake]; simp)]
    rw [hdrop, parseAttrs_rt attrs r hattrs]
    have hmap : (c :: nm1).map lowerChar = c :: nm1 :=
      map_lower_fixed (fun e he => (hchars e he).2)
    have htake2 := htake
    simp only [List.cons_append] at htake2
    simp [htake, htake2, hmap]

theorem parseTag_rt_close (nm : List Char) (r : List Char) (hnm : nameOk nm) :
    parseTag ('/' :: (nm ++ '>' :: r)) = some (.tagClose nm, r) := by
  obtain ⟨hne, hchars⟩ := hnm
  have hall : ∀ e ∈ nm, isTagCharRaw e = true := fun e he => (hchars e he).1
  have htake : (nm ++ '>' :: r).takeWhile isTagCharRaw = nm :=
    (takedrop_all_append nm r hall (by decide)).1
  have hdrop : (nm ++ '>' :: r).dropWhile isTagCharRaw = '>' :: r :=
    (takedrop_all_append nm r hall (by decide)).2
  rw [parseTag.eq_def]
  split
  · rename_i r1 h
    injection h with h1 h2
    subst h2
    rw [if_neg (by rw [htake]; simpa using hne)]
    rw [hdrop]
    have hmap : nm.map lowerChar = nm :=
      map_lower_fixed (fun e he => (hchars e he).2)
    simp [htake, hmap]
  · rename_i hguard
    exact ((hguard _ rfl)).elim

theorem tokenizeRaw_nil : tokenizeRaw [] = [] := by
  rw [tokenizeRaw.eq_def]

theorem tokenizeRaw_lt_some {r r2 : List Char} {t : Tok}
    (h : parseTag r = some (t, r2)) :
    tokenizeRaw ('<' :: r) = t :: tokenizeRaw r2 := by
  rw [tokenizeRaw.eq_def]
  split
  · rename_i hx
    cases hx
  · rename_i r0 hx
    injection hx with h1 h2
    subst h2
    split
    · rename_i t2 r3 hp
      rw [h] at hp
      injection hp with hp
      injection hp with hp1 hp2
      rw [hp1, hp2]
    · rename_i hp
      rw [h] at hp
      cases hp
  · rename_i c r0 hg hx
    injection hx with h1 h2
    subst h1
    exact absurd rfl hg

theorem tokenizeRaw_cons_ne {c : Char} (r : List Char) (h : ¬ c = '<') :
    tokenizeRaw (c :: r) = consText c (tokenizeRaw r) := by
  rw [tokenizeRaw.eq_def]
  split
  · rename_i hx
    cases hx
  · rename_i r0 hx
    injection hx with h1 h2
    exact absurd h1 h
  · rename_i c0 r0 hg hx
    injection hx with h1 h2
    subst h1
    subst h2
    rfl

/-- Prepend a whole string of text characters to the token stream. -/
def consTextL (s : List Char) (ts : List Tok) : List Tok := s.foldr consText ts

theorem tokenizeRaw_text_append :
    ∀ (s : List Char), (∀ c ∈ s, ¬ c = '<') →
      ∀ r, tokenizeRaw (s ++ r) = consTextL s (tokenizeRaw r) := by
  intro s
  induction s with
  | nil => intro _ r; rfl
  | cons c s ih =>
    intro h r
    rw [List.cons_append, tokenizeRaw_cons_ne _ (h c (List.mem_cons_self _ _))]
    rw [ih (fun d hd => h d (List.mem_cons_of_mem _ hd)) r]
    rfl

/-- Prepend a text run to a token stream, merging with a leading text
token. -/
def canonTextCons (a : List Char) (ts : List Tok) : List Tok :=
  match ts with
  | .text b :: rest => .text (a ++ b) :: rest
  | _ => .text a :: ts

/-- Canonical form of a token stream: adjacent text runs merged. -/
def canon : List Tok → List Tok
  | .text a :: .text b :: ts => canon (.text (a ++ b) :: ts)
  | t :: ts => t :: canon ts
  | [] => []
termination_by ts => ts.length
decreasing_by
  · simp only [List.length_cons]
    omega
  · simp only [List.length_cons]
    omega

theorem canon_nil : canon [] = [] := by
  rw [canon.eq_def]

theorem canon_two (a b : List Char) (ts : List Tok) :
    canon (.text a :: .text b :: ts) = canon (.text (a ++ b) :: ts) := by
  conv_lhs => rw [canon.eq_def]

theorem canon_single_text (a : List Char) : canon [.text a] = [.text a] := by
  rw [canon.eq_def]
  split
  · rename_i h
    cases h
  · rename_i t ts h
    injection h with h1 h2
    subst h1
    subst h2
    rw [canon_nil]
  · rename_i h
    cases h

theorem canon_text_nontext (a : List Char) (t : Tok) (ts : List Tok)
    (ht : ∀ s, t ≠ .text s) : canon (.text a :: t :: ts) = .text a :: canon (t :: ts) := by
  rw [canon.eq_def]
  split
  · rename_i a2 b2 ts2 h
    injection h with h1 h2
    injection h2 with h2 h3
    exact absurd h2 (ht b2)
  · rename_i t2 ts2 h
    injection h with h1 h2
    subst h1
    subst h2
    rfl
  · rename_i h
    cases h

theorem canon_tag_cons (t : Tok) (ts : List Tok) (ht : ∀ s, t ≠ .text s) :
    canon (t :: ts) = t :: canon ts := by
  rw [canon.eq_def]
  split
  · rename_i a2 b2 ts2 h
    injection h with h1 h2
    exact absurd h1 (ht a2)
  · rename_i t2 ts2 h
    injection h with h1 h2
    subst h1
    subst h2
    rfl
  · rename_i h
    cases h

theorem canonTextCons_assoc (a b : List Char) (ts : List Tok) :
    canonTextCons (a ++ b) ts = canonTextCons a (canonTextCons b ts) := by
  rcases ts with _ | ⟨t, rest⟩
  · simp [canonTextCons]
  · rcases t with c | ⟨nm, attrs⟩ | nm <;>
      simp [canonTextCons, List.append_assoc]

theorem canon_cons_text :
    ∀ (n : Nat) (ts : List Tok), ts.length ≤ n →
      ∀ a, canon (.text a :: ts) = canonTextCons a (canon ts) := by
  intro n
  induction n with
  | zero =>
    intro ts hl a
    rcases ts with _ | ⟨t, rest⟩
    · rw [canon_single_text, canon_nil]
      rfl
    · simp at hl
  | succ n ih =>
    intro ts hl a
    rcases ts with _ | ⟨t, rest⟩
    · rw [canon_single_text, canon_nil]
      rfl
    · rcases t with b | ⟨nm, attrs⟩ | nm
      · rw [canon_two, ih rest (by simp at hl; omega) (a ++ b)]
        rw [show canon (Tok.text b :: rest) =
          canonTextCons b (canon rest) from ih rest (by simp at hl; omega) b]
        exact canonTextCons_assoc a b (canon rest)
      · rw [canon_text_nontext _ _ _ (fun s h => by cases h)]
        rw [canon_tag_cons _ _ (fun s h => by cases h)]
        rfl
      · rw [canon_text_nontext _ _ _ (fun s h => by cases h)]
        rw [canon_tag_cons _ _ (fun s h => by cases h)]
        rfl

theorem consText_base (c : Char) (ts : List Tok) :
    consText c ts = canonTextCons [c] ts := by
  rcases ts with _ | ⟨t, rest⟩
  · simp [consText, canonTextCons]
  · rcases t with b | ⟨nm, attrs⟩ | nm <;>
      simp [consText, canonTextCons]

theorem consText_canonTextCons (c : Char) (s : List Char) (ts : List Tok) :
    consText c (canonTextCons s ts) = canonTextCons (c :: s) ts := by
  rcases ts with _ | ⟨t, rest⟩
  · simp [consText, canonTextCons]
  · rcases t with b | ⟨nm, attrs⟩ | nm <;>
      simp [consText, canonTextCons]

theorem consTextL_eq_canonTextCons :
    ∀ (s : List Char), s ≠ [] → ∀ ts, consTextL s ts = canonTextCons s ts := by
  intro s
  induction s with
  | nil => intro h; exact absurd rfl h
  | cons c s ih =>
    intro _ ts
    rcases hs : s with _ | ⟨d, s1⟩
    · subst hs
      simp only [consTextL, List.foldr_cons, List.foldr_nil]
      exact consText_base c ts
    · rw [← hs]
      have hstep : consTextL (c :: s) ts = consText c (consTextL s ts) := by
        simp [consTextL]
      rw [hstep, ih (by rw [hs]; simp) ts]
      exact consText_canonTextCons c s ts

theorem esc_append : ∀ (a b : List Char), esc (a ++ b) = esc a ++ esc b := by
  intro a b
  induction a with
  | nil => rfl
  | cons c a ih =>
    show escChar c ++ esc (a ++ b) = (escChar c ++ esc a) ++ esc b
    rw [ih, List.append_assoc]

theorem decode_esc_append :
    ∀ (s r : List Char), decodeEnt (esc s ++ r) = s ++ decodeEnt r := by
  intro s
  induction s with
  | nil => intro r; rfl
  | cons c s ih =>
    intro r
    show decodeEnt ((escChar c ++ esc s) ++ r) = (c :: s) ++ decodeEnt r
    rw [List.append_assoc]
    unfold escChar
    split_ifs with h1 h2 h3 h4
    · subst h1
      rw [show ("&amp;").data ++ (esc s ++ r) =
        '&' :: (("amp;").data ++ (esc s ++ r)) from rfl]
      rw [decodeEnt_amp_some (by
        unfold parseEntity
        rw [if_pos (prefixOf_append (("amp;").data) (esc s ++ r))])]
      rw [show (("amp;").data ++ (esc s ++ r)).drop 4 = esc s ++ r from
        List.drop_left (("amp;").data) (esc s ++ r), ih r, List.cons_append]
    · subst h2
      rw [show ("&lt;").data ++ (esc s ++ r) =
        '&' :: (("lt;").data ++ (esc s ++ r)) from rfl]
      rw [decodeEnt_amp_some (d := '<') (k := 3) (by
        unfold parseEntity
        rw [if_neg (by rw [show ("lt;").data ++ (esc s ++ r) =
              'l' :: (("t;").data ++ (esc s ++ r)) from rfl,
              prefixOf_cons_ne _ _ (by decide)]; exact Bool.false_ne_true)]
        rw [if_pos (prefixOf_append (("lt;").data) (esc s ++ r))])]
      rw [show (("lt;").data ++ (esc s ++ r)).drop 3 = esc s ++ r from
        List.drop_left (("lt;").data) (esc s ++ r), ih r, List.cons_append]
    · subst h3
      rw [show ("&gt;").data ++ (esc s ++ r) =
        '&' :: (("gt;").data ++ (esc s ++ r)) from rfl]
      rw [decodeEnt_amp_some (d := '>') (k := 3) (by
        unfold parseEntity
        rw [if_neg (by rw [show ("gt;").data ++ (esc s ++ r) =
              'g' :: (("t;").data ++ (esc s ++ r)) from rfl,
              prefixOf_cons_ne _ _ (by decide)]; exact Bool.false_ne_true)]
        rw [if_neg (by rw [show ("gt;").data ++ (esc s ++ r) =
              'g' :: (("t;").data ++ (esc s ++ r)) from rfl,
              prefixOf_cons_ne _ _ (by decide)]; exact Bool.false_ne_true)]
        rw [if_pos (prefixOf_append (("gt;").data) (esc s ++ r))])]
      rw [show (("gt;").data ++ (esc s ++ r)).drop 3 = esc s ++ r from
        List.drop_left (("gt;").data) (esc s ++ r), ih r, List.cons_append]
    · subst h4
      rw [show ("&quot;").data ++ (esc s ++ r) =
        '&' :: (("quot;").data ++ (esc s ++ r)) from rfl]
      rw [decodeEnt_amp_some (d := '"') (k := 5) (by
        unfold parseEntity
        rw [if_neg (by rw [show ("quot;").data ++ (esc s ++ r) =
              'q' :: (("uot;").data ++ (esc s ++ r)) from rfl,
              prefixOf_cons_ne _ _ (by decide)]; exact Bool.false_ne_true)]
        rw [if_neg (by rw [show ("quot;").data ++ (esc s ++ r) =
              'q' :: (("uot;").data ++ (esc s ++ r)) from rfl,
              prefixOf_cons_ne _ _ (by decide)]; exact Bool.false_ne_true)]
        rw [if_neg (by rw [show ("quot;").data ++ (esc s ++ r) =
              'q' :: (("uot;").data ++ (esc s ++ r)) from rfl,
              prefixOf_cons_ne _ _ (by decide)]; exact Bool.false_ne_true)]
        rw [if_pos (prefixOf_append (("quot;").data) (esc s ++ r))])]
      rw [show (("quot;").data ++ (esc s ++ r)).drop 5 = esc s ++ r from
        List.drop_left (("quot;").data) (esc s ++ r), ih r, List.cons_append]
    · rw [show [c] ++ (esc s ++ r) = c :: (esc s ++ r) from rfl,
        decodeEnt_cons_ne _ h1, ih r, List.cons_append]

theorem decodeTexts_canonTextCons (s : List Char) (X : List Tok) :
    decodeTexts (canonTextCons (esc s) X) = canonTextCons s (decodeTexts X) := by
  rcases X with _ | ⟨t, rest⟩
  · simp [canonTextCons, decodeTexts, decodeTok, decode_esc]
  · rcases t with b | ⟨nm, attrs⟩ | nm
    · simp [canonTextCons, decodeTexts, decodeTok, decode_esc_append]
    · simp [canonTextCons, decodeTexts, decodeTok, decode_esc]
    · simp [canonTextCons, decodeTexts, decodeTok, decode_esc]

theorem serialize_cons (t : Tok) (ts : List Tok) :
    serialize (t :: ts) = serializeTok t ++ serialize ts := by
  simp [serialize]

theorem rt_aux :
    ∀ (n : Nat) (ts : List Tok), ts.length ≤ n → (∀ t ∈ ts, WfTok t) →
      decodeTexts (tokenizeRaw (serialize ts)) = canon ts := by
  intro n
  induction n with
  | zero =>
    intro ts hl hwf
    rcases ts with _ | ⟨t, rest⟩
    · rw [show serialize [] = [] from rfl, tokenizeRaw_nil, canon_nil]
      rfl
    · simp at hl
  | succ n ih =>
    intro ts hl hwf
    rcases ts with _ | ⟨t, rest⟩
    · rw [show serialize [] = [] from rfl, tokenizeRaw_nil, canon_nil]
      rfl
    · have hrest : ∀ u ∈ rest, WfTok u :=
        fun u hu => hwf u (List.mem_cons_of_mem _ hu)
      have hlr : rest.length ≤ n := by simp at hl; omega
      rcases t with s | ⟨nm, attrs⟩ | nm
      · have hs : s ≠ [] := hwf (.text s) (List.mem_cons_self _ _)
        rw [serialize_cons]
        rw [show serializeTok (Tok.text s) = esc s from rfl]
        rw [tokenizeRaw_text_append (esc s)
          (fun c hc => (esc_no_special hc).1) (serialize rest)]
        rw [consTextL_eq_canonTextCons (esc s) (esc_ne_nil hs) _]
        rw [decodeTexts_canonTextCons s _]
        rw [ih rest hlr hrest]
        exact (canon_cons_text rest.length rest (Nat.le_refl _) s).symm
      · have hwt : nameOk nm ∧ ∀ a ∈ attrs, nameOk a.1 :=
          hwf (.tagOpen nm attrs) (List.mem_cons_self _ _)
        have hser : serialize (Tok.tagOpen nm attrs :: rest) =
            '<' :: (nm ++ (serializeAttrsL attrs ++ '>' :: serialize rest)) := by
          rw [serialize_cons]
          show ('<' :: (nm ++ (serializeAttrsL attrs ++ ['>']))) ++
            serialize rest = _
          simp [List.cons_append, List.append_assoc]
        rw [hser, tokenizeRaw_lt_some
          (parseTag_rt_open nm attrs (serialize rest) hwt.1 hwt.2)]
        rw [show decodeTexts (Tok.tagOpen nm attrs ::
            tokenizeRaw (serialize rest)) =
          Tok.tagOpen nm attrs :: decodeTexts (tokenizeRaw (serialize rest))
          from rfl]
        rw [ih rest hlr hrest]
        rw [canon_tag_cons _ _ (fun s h => by cases h)]
      · have hwt : nameOk nm := hwf (.tagClose nm) (List.mem_cons_self _ _)
        have hser : serialize (Tok.tagClose nm :: rest) =
            '<' :: ('/' :: (nm ++ '>' :: serialize rest)) := by
          rw [serialize_cons]
          show ('<' :: '/' :: (nm ++ ['>'])) ++ serialize rest = _
          simp [List.cons_append, List.append_assoc]
        rw [hser, tokenizeRaw_lt_some
          (parseTag_rt_close nm (serialize rest) hwt)]
        rw [show decodeTexts (Tok.tagClose nm ::
            tokenizeRaw (serialize rest)) =
          Tok.tagClose nm :: decodeTexts (tokenizeRaw (serialize rest))
          from rfl]
        rw [ih rest hlr hrest]
        rw [canon_tag_cons _ _ (fun s h => by cases h)]

/-- Round trip: tokenizing serialized well-formed tokens yields their
canonical form (adjacent text runs merged). -/
theorem tokenize_serialize (ts : List Tok) (hwf : ∀ t ∈ ts, WfTok t) :
    tokenize (serialize ts) = canon ts :=
  rt_aux ts.length ts (Nat.le_refl _) hwf

/-- Tokens the policy filter can emit: text, allowed opening tags with
already-filtered attributes, allowed closing tags. -/
def PolTok : Tok → Prop
  | .text _ => True
  | .tagOpen nm attrs => skipContentElements.contains nm = false ∧
      allowedElements.contains nm = true ∧ filterAttrs nm attrs = attrs
  | .tagClose nm => allowedElements.contains nm = true

theorem filterAttrs_idem (el : List Char)
    (attrs : List (List Char × List Char)) :
    filterAttrs el (filterAttrs el attrs) = filterAttrs el attrs := by
  induction attrs with
  | nil => rfl
  | cons a as ih =>
    unfold filterAttrs
    rw [List.filter_cons]
    split_ifs with h
    · rw [List.filter_cons, if_pos h]
      unfold filterAttrs at ih
      rw [ih]
    · unfold filterAttrs at ih
      rw [ih]

theorem filterToks_wf :
    ∀ (ts : List Tok) (mode : Option (List Char)),
      (∀ t ∈ ts, WfTok t) → ∀ u ∈ filterToks ts mode, WfTok u := by
  intro ts
  induction ts with
  | nil =>
    intro mode _ u hu
    rw [show filterToks [] mode = [] from rfl] at hu
    cases hu
  | cons t rest ih =>
    intro mode hwf u hu
    have hrest : ∀ v ∈ rest, WfTok v :=
      fun v hv => hwf v (List.mem_cons_of_mem _ hv)
    rcases mode with _ | nm
    · rcases t with s | ⟨nm2, attrs⟩ | nm2
      · rw [show filterToks (Tok.text s :: rest) none =
          Tok.text s :: filterToks rest none from rfl] at hu
        rcases List.mem_cons.mp hu with rfl | hu
        · exact hwf _ (List.mem_cons_self _ _)
        · exact ih none hrest u hu
      · rw [show filterToks (Tok.tagOpen nm2 attrs :: rest) none =
          (if skipContentElements.contains nm2 then filterToks rest (some nm2)
           else if allowedElements.contains nm2 then
             Tok.tagOpen nm2 (filterAttrs nm2 attrs) :: filterToks rest none
           else filterToks rest none) from rfl] at hu
        split_ifs at hu with h1 h2
        · exact ih _ hrest u hu
        · rcases List.mem_cons.mp hu with rfl | hu
          · have hw : nameOk nm2 ∧ ∀ a ∈ attrs, nameOk a.1 :=
              hwf _ (List.mem_cons_self _ _)
            exact ⟨hw.1, fun a ha => hw.2 a (List.mem_of_mem_filter ha)⟩
          · exact ih none hrest u hu
        · exact ih none hrest u hu
      · rw [show filterToks (Tok.tagClose nm2 :: rest) none =
          (if allowedElements.contains nm2 then
            Tok.tagClose nm2 :: filterToks rest none
           else filterToks rest none) from rfl] at hu
        split_ifs at hu with h1
        · rcases List.mem_cons.mp hu with rfl | hu
          · exact hwf _ (List.mem_cons_self _ _)
          · exact ih none hrest u hu
        · exact ih none hrest u hu
    · rcases t with s | ⟨nm2, attrs⟩ | nm2
      · rw [show filterToks (Tok.text s :: rest) (some nm) =
          filterToks rest (some nm) from rfl] at hu
        exact ih _ hrest u hu
      · rw [show filterToks (Tok.tagOpen nm2 attrs :: rest) (some nm) =
          filterToks rest (some nm) from rfl] at hu
        exact ih _ hrest u hu
      · rw [show filterToks (Tok.tagClose nm2 :: rest) (some nm) =
          (if nm2 = nm then filterToks rest none
           else filterToks rest (some nm)) from rfl] at hu
        split_ifs at hu with h1
        · exact ih _ hrest u hu
        · exact ih _ hrest u hu

theorem filterToks_out :
    ∀ (ts : List Tok) (mode : Option (List Char)),
      ∀ u ∈ filterToks ts mode, PolTok u := by
  intro ts
  induction ts with
  | nil =>
    intro mode u hu
    rw [show filterToks [] mode = [] from rfl] at hu
    cases hu
  | cons t rest ih =>
    intro mode u hu
    rcases mode with _ | nm
    · rcases t with s | ⟨nm2, attrs⟩ | nm2
      · rw [show filterToks (Tok.text s :: rest) none =
          Tok.text s :: filterToks rest none from rfl] at hu
        rcases List.mem_cons.mp hu with rfl | hu
        · trivial
        · exact ih none u hu
      · rw [show filterToks (Tok.tagOpen nm2 attrs :: rest) none =
          (if skipContentElements.contains nm2 then filterToks rest (some nm2)
           else if allowedElements.contains nm2 then
             Tok.tagOpen nm2 (filterAttrs nm2 attrs) :: filterToks rest none
           else filterToks rest none) from rfl] at hu
        split_ifs at hu with h1 h2
        · exact ih _ u hu
        · rcases List.mem_cons.mp hu with rfl | hu
          · exact ⟨Bool.not_eq_true _ ▸ (by simpa using h1), h2,
              filterAttrs_idem nm2 attrs⟩
          · exact ih none u hu
        · exact ih none u hu
      · rw [show filterToks (Tok.tagClose nm2 :: rest) none =
          (if allowedElements.contains nm2 then
            Tok.tagClose nm2 :: filterToks rest none
           else filterToks rest none) from rfl] at hu
        split_ifs at hu with h1
        · rcases List.mem_cons.mp hu with rfl | hu
          · exact h1
          · exact ih none u hu
        · exact ih none u hu
    · rcases t with s | ⟨nm2, attrs⟩ | nm2
      · rw [show filterToks (Tok.text s :: rest) (some nm) =
          filterToks rest (some nm) from rfl] at hu
        exact ih _ u hu
      · rw [show filterToks (Tok.tagOpen nm2 attrs :: rest) (some nm) =
          filterToks rest (some nm) from rfl] at hu
        exact ih _ u hu
      · rw [show filterToks (Tok.tagClose nm2 :: rest) (some nm) =
          (if nm2 = nm then filterToks rest none
           else filterToks rest (some nm)) from rfl] at hu
        split_ifs at hu with h1
        · exact ih _ u hu
        · exact ih _ u hu

theorem filterToks_fix :
    ∀ ts : List Tok, (∀ t ∈ ts, PolTok t) → filterToks ts none = ts := by
  intro ts
  induction ts with
  | nil => intro _; rfl
  | cons t rest ih =>
    intro hp
    have hprest : ∀ v ∈ rest, PolTok v :=
      fun v hv => hp v (List.mem_cons_of_mem _ hv)
    rcases t with s | ⟨nm, attrs⟩ | nm
    · show Tok.text s :: filterToks rest none = _
      rw [ih hprest]
    · have h : skipContentElements.contains nm = false ∧
        allowedElements.contains nm = true ∧ filterAttrs nm attrs = attrs :=
        hp _ (List.mem_cons_self _ _)
      show (if skipContentElements.contains nm then filterToks rest (some nm)
        else if allowedElements.contains nm then
          Tok.tagOpen nm (filterAttrs nm attrs) :: filterToks rest none
        else filterToks rest none) = _
      rw [if_neg (by intro hc; rw [h.1] at hc; cases hc), if_pos h.2.1,
        h.2.2, ih hprest]
    · have h : allowedElements.contains nm = true :=
        hp _ (List.mem_cons_self _ _)
      show (if allowedElements.contains nm then
        Tok.tagClose nm :: filterToks rest none
        else filterToks rest none) = _
      rw [if_pos h, ih hprest]

theorem canon_pol :
    ∀ (n : Nat) (ts : List Tok), ts.length ≤ n → (∀ t ∈ ts, PolTok t) →
      ∀ u ∈ canon ts, PolTok u := by
  intro n
  induction n with
  | zero =>
    intro ts hl hp u hu
    rcases ts with _ | ⟨t, rest⟩
    · rw [canon_nil] at hu
      cases hu
    · simp at hl
  | succ n ih =>
    intro ts hl hp u hu
    rcases ts with _ | ⟨t, rest⟩
    · rw [canon_nil] at hu
      cases hu
    · have hprest : ∀ v ∈ rest, PolTok v :=
        fun v hv => hp v (List.mem_cons_of_mem _ hv)
      rcases t with a | ⟨nm, attrs⟩ | nm
      · rcases rest with _ | ⟨t2, rest2⟩
        · rw [canon_single_text] at hu
          rcases List.mem_cons.mp hu with rfl | hu
          · trivial
          · cases hu
        · rcases t2 with b | ⟨nm2, attrs2⟩ | nm2
          · rw [canon_two] at hu
            refine ih (Tok.text (a ++ b) :: rest2) (by simp at hl ⊢; omega)
              ?_ u hu
            intro v hv
            rcases List.mem_cons.mp hv with rfl | hv
            · trivial
            · exact hprest v (List.mem_cons_of_mem _ hv)
          · rw [canon_text_nontext _ _ _ (fun s h => by cases h)] at hu
            rcases List.mem_cons.mp hu with rfl | hu
            · trivial
            · exact ih _ (by simp at hl ⊢; omega) hprest u hu
          · rw [canon_text_nontext _ _ _ (fun s h => by cases h)] at hu
            rcases List.mem_cons.mp hu with rfl | hu
            · trivial
            · exact ih _ (by simp at hl ⊢; omega) hprest u hu
      · rw [canon_tag_cons _ _ (fun s h => by cases h)] at hu
        rcases List.mem_cons.mp hu with rfl | hu
        · exact hp _ (List.mem_cons_self _ _)
        · exact ih rest (by simp at hl; omega) hprest u hu
      · rw [canon_tag_cons _ _ (fun s h => by cases h)] at hu
        rcases List.mem_cons.mp hu with rfl | hu
        · exact hp _ (List.mem_cons_self _ _)
        · exact ih rest (by simp at hl; omega) hprest u hu

theorem serialize_canon :
    ∀ (n : Nat) (ts : List Tok), ts.length ≤ n →
      serialize (canon ts) = serialize ts := by
  intro n
  induction n with
  | zero =>
    intro ts hl
    rcases ts with _ | ⟨t, rest⟩
    · rw [canon_nil]
    · simp at hl
  | succ n ih =>
    intro ts hl
    rcases ts with _ | ⟨t, rest⟩
    · rw [canon_nil]
    · rcases t with a | ⟨nm, attrs⟩ | nm
      · rcases rest with _ | ⟨t2, rest2⟩
        · rw [canon_single_text]
        · rcases t2 with b | ⟨nm2, attrs2⟩ | nm2
          · rw [canon_two, ih _ (by simp at hl ⊢; omega)]
            rw [serialize_cons, serialize_cons, serialize_cons]
            rw [show serializeTok (Tok.text (a ++ b)) = esc (a ++ b) from rfl,
              show serializeTok (Tok.text a) = esc a from rfl,
              show serializeTok (Tok.text b) = esc b from rfl,
              esc_append, List.append_assoc]
          · rw [canon_text_nontext _ _ _ (fun s h => by cases h)]
            rw [serialize_cons, serialize_cons,
              ih _ (by simp at hl ⊢; omega)]
          · rw [canon_text_nontext _ _ _ (fun s h => by cases h)]
            rw [serialize_cons, serialize_cons,
              ih _ (by simp at hl ⊢; omega)]
      · rw [canon_tag_cons _ _ (fun s h => by cases h)]
        rw [serialize_cons, serialize_cons, ih _ (by simp at hl; omega)]
      · rw [canon_tag_cons _ _ (fun s h => by cases h)]
        rw [serialize_cons, serialize_cons, ih _ (by simp at hl; omega)]

/-- C8: the sanitizer is idempotent — for every byte string x,
sanitize(sanitize(x)) equals sanitize(x). -/
theorem claim_C8 (x : List Char) :
    sanitizeHTML (sanitizeHTML x) = sanitizeHTML x := by
  unfold sanitizeHTML
  rw [tokenize_serialize (filterToks (tokenize x) none)
    (filterToks_wf (tokenize x) none (tokenize_wf x))]
  rw [filterToks_fix (canon (filterToks (tokenize x) none))
    (canon_pol (filterToks (tokenize x) none).length _ (Nat.le_refl _)
      (filterToks_out (tokenize x) none))]
  exact serialize_canon (filterToks (tokenize x) none).length _ (Nat.le_refl _)

theorem lt_notin_name {nm : List Char}
    (h : ∀ c ∈ nm, isTagCharRaw c = true) : '<' ∉ nm := by
  intro hm
  have := h '<' hm
  exact absurd this (by decide)

theorem lt_notin_serializeAttr {a : List Char × List Char}
    (h : nameOk a.1) : '<' ∉ serializeAttr a := by
  intro hm
  rw [show serializeAttr a =
    ' ' :: (a.1 ++ '=' :: '"' :: (esc a.2 ++ ['"'])) from rfl] at hm
  rcases List.mem_cons.mp hm with hc | hm
  · exact absurd hc (by decide)
  · rcases List.mem_append.mp hm with hm | hm
    · exact lt_notin_name (fun c hc => (h.2 c hc).1) hm
    · rcases List.mem_cons.mp hm with hc | hm
      · exact absurd hc (by decide)
      · rcases List.mem_cons.mp hm with hc | hm
        · exact absurd hc (by decide)
        · rcases List.mem_append.mp hm with hm | hm
          · exact (esc_no_special hm).1 rfl
          · simp at hm

theorem lt_notin_serializeAttrsL {attrs : List (List Char × List Char)}
    (h : ∀ a ∈ attrs, nameOk a.1) : '<' ∉ serializeAttrsL attrs := by
  induction attrs with
  | nil => simp [serializeAttrsL]
  | cons a as ih =>
    intro hm
    rw [show serializeAttrsL (a :: as) =
      serializeAttr a ++ serializeAttrsL as from by
        unfold serializeAttrsL; simp] at hm
    rcases List.mem_append.mp hm with hm | hm
    · exact lt_notin_serializeAttr (h a (List.mem_cons_self _ _)) hm
    · exact ih (fun p hp => h p (List.mem_cons_of_mem _ hp)) hm

theorem serialize_lt_split :
    ∀ (n : Nat) (ts : List Tok), ts.length ≤ n →
      (∀ t ∈ ts, WfTok t) → (∀ t ∈ ts, PolTok t) →
      ∀ a b, serialize ts = a ++ '<' :: b →
        ∃ nm d rest, allowedElements.contains nm = true ∧
          isTagCharRaw d = false ∧
          (b = nm ++ d :: rest ∨ b = '/' :: (nm ++ d :: rest)) := by
  intro n
  induction n with
  | zero =>
    intro ts hl _ _ a b heq
    rcases ts with _ | ⟨t, ts1⟩
    · rw [show serialize [] = [] from rfl] at heq
      exact absurd heq (by simp)
    · simp at hl
  | succ n ih =>
    intro ts hl hwf hpol a b heq
    rcases ts with _ | ⟨t, ts1⟩
    · rw [show serialize [] = [] from rfl] at heq
      exact absurd heq (by simp)
    · have hl1 : ts1.length ≤ n := by simp at hl; omega
      have hwf1 : ∀ u ∈ ts1, WfTok u :=
        fun u hu => hwf u (List.mem_cons_of_mem _ hu)
      have hpol1 : ∀ u ∈ ts1, PolTok u :=
        fun u hu => hpol u (List.mem_cons_of_mem _ hu)
      rw [serialize_cons] at heq
      rcases List.append_eq_append_iff.mp heq.symm with
        ⟨l, hX, hY⟩ | ⟨l, ha, hY⟩
      · rcases l with _ | ⟨c0, l2⟩
        · rw [List.nil_append] at hY
          exact ih ts1 hl1 hwf1 hpol1 [] b (by rw [← hY]; rfl)
        · rw [List.cons_append] at hY
          injection hY with hc0 hb
          rw [← hc0] at hX
          rcases t with s | ⟨nm, attrs⟩ | nm
          · exfalso
            have hm : '<' ∈ esc s := by
              rw [show serializeTok (Tok.text s) = esc s from rfl] at hX
              rw [hX]
              simp
            exact (esc_no_special hm).1 rfl
          · have hwt : nameOk nm ∧ ∀ p ∈ attrs, nameOk p.1 :=
              hwf _ (List.mem_cons_self _ _)
            have hpt : skipContentElements.contains nm = false ∧
                allowedElements.contains nm = true ∧
                filterAttrs nm attrs = attrs :=
              hpol _ (List.mem_cons_self _ _)
            rw [show serializeTok (Tok.tagOpen nm attrs) =
              '<' :: (nm ++ (serializeAttrsL attrs ++ ['>'])) from rfl] at hX
            rcases a with _ | ⟨c1, a2⟩
            · rw [List.nil_append] at hX
              injection hX with hx1 hl2
              obtain ⟨d, restA, hdr, hdt, hds⟩ :=
                serializeAttrsL_head attrs (serialize ts1)
              refine ⟨nm, d, restA, hpt.2.1, hdt, Or.inl ?_⟩
              rw [hb, ← hl2]
              have hsh : (nm ++ (serializeAttrsL attrs ++ ['>'])) ++
                  serialize ts1 =
                  nm ++ (serializeAttrsL attrs ++ '>' :: serialize ts1) := by
                simp [List.append_assoc]
              rw [hsh, hdr]
            · exfalso
              rw [List.cons_append] at hX
              injection hX with hc1 hrest
              have hm : '<' ∈ nm ++ (serializeAttrsL attrs ++ ['>']) := by
                rw [hrest]
                simp
              rcases List.mem_append.mp hm with hm | hm
              · exact lt_notin_name (fun c hc => (hwt.1.2 c hc).1) hm
              · rcases List.mem_append.mp hm with hm | hm
                · exact lt_notin_serializeAttrsL hwt.2 hm
                · simp at hm
          · have hwt : nameOk nm := hwf _ (List.mem_cons_self _ _)
            have hpt : allowedElements.contains nm = true :=
              hpol _ (List.mem_cons_self _ _)
            rw [show serializeTok (Tok.tagClose nm) =
              '<' :: '/' :: (nm ++ ['>']) from rfl] at hX
            rcases a with _ | ⟨c1, a2⟩
            · rw [List.nil_append] at hX
              injection hX with hx1 hl2
              refine ⟨nm, '>', serialize ts1, hpt, by decide, Or.inr ?_⟩
              rw [hb, ← hl2]
              simp [List.cons_append, List.append_assoc]
            · exfalso
              rw [List.cons_append] at hX
              injection hX with hc1 hrest
              have hm : '<' ∈ '/' :: (nm ++ ['>']) := by
                rw [hrest]
                simp
              rcases List.mem_cons.mp hm with hc | hm
              · exact absurd hc (by decide)
              · rcases List.mem_append.mp hm with hm | hm
                · exact lt_notin_name (fun c hc => (hwt.2 c hc).1) hm
                · simp at hm
      · exact ih ts1 hl1 hwf1 hpol1 l b hY

theorem prefix_transfer :
    ∀ (q nm b : List Char) (d : Char) (rest : List Char),
      q ++ b = nm ++ d :: rest → (∀ c ∈ q, isTagCharRaw c = true) →
      isTagCharRaw d = false → q <+: nm := by
  intro q
  induction q with
  | nil =>
    intro nm b d rest _ _ _
    exact List.nil_prefix
  | cons c q ih =>
    intro nm b d rest heq hq hd
    rcases nm with _ | ⟨e, nm1⟩
    · rw [List.nil_append] at heq
      rw [List.cons_append] at heq
      injection heq with h1 h2
      have := hq c (List.mem_cons_self _ _)
      rw [h1, hd] at this
      cases this
    · rw [List.cons_append, List.cons_append] at heq
      injection heq with h1 h2
      subst h1
      exact List.cons_prefix_cons.mpr
        ⟨rfl, ih nm1 b d rest h2
          (fun x hx => hq x (List.mem_cons_of_mem _ hx)) hd⟩

theorem contains_mem {l : List (List Char)} {x : List Char}
    (h : l.contains x = true) : x ∈ l := by
  simpa using h

/-- The banned tag substrings named by the specification. -/
def bannedTagSubstrings : List (List Char) :=
  [("<script").data, ("<iframe").data, ("<object").data, ("<embed").data,
   ("<form").data, ("<style").data, ("<meta>").data, ("<base").data,
   ("<link rel=").data]

theorem banned_generic (q w x : List Char) (hqne : q ≠ [])
    (hq : ∀ c ∈ q, isTagCharRaw c = true)
    (hnm : ∀ nm ∈ allowedElements, ¬ (q <+: nm)) :
    hasSubstr (sanitizeHTML x) ('<' :: (q ++ w)) = false := by
  cases hss : hasSubstr (sanitizeHTML x) ('<' :: (q ++ w)) with
  | false => rfl
  | true =>
    exfalso
    obtain ⟨pre, t, hout⟩ := hasSubstr_ex.mp hss
    have hout2 : serialize (filterToks (tokenize x) none) =
        pre ++ '<' :: (q ++ (w ++ t)) := by
      rw [show sanitizeHTML x =
        serialize (filterToks (tokenize x) none) from rfl] at hout
      rw [hout]
      simp [List.cons_append, List.append_assoc]
    obtain ⟨nm, d, rest, hcont, hd, hb⟩ :=
      serialize_lt_split (filterToks (tokenize x) none).length
        (filterToks (tokenize x) none) (Nat.le_refl _)
        (filterToks_wf (tokenize x) none (tokenize_wf x))
        (filterToks_out (tokenize x) none)
        pre (q ++ (w ++ t)) hout2
    rcases hb with hb | hb
    · exact hnm nm (contains_mem hcont)
        (prefix_transfer q nm (w ++ t) d rest hb hq hd)
    · rcases q with _ | ⟨c, q1⟩
      · exact hqne rfl
      · rw [List.cons_append] at hb
        injection hb with h1 h2
        exact tagchar_not_slash (hq c (List.mem_cons_self _ _)) h1

theorem attrOk_no_on {el : List Char} {a : List Char × List Char}
    (h : attrOk el a = true) : ¬ (("on").data <+: a.1) := by
  intro hon
  have h0 : (allowedGlobalAttr a.1 || allowedElemAttr el a.1) = true := by
    unfold attrOk at h
    simp only [Bool.and_eq_true] at h
    exact h.1
  rw [Bool.or_eq_true] at h0
  rcases h0 with hg | he
  · simp only [allowedGlobalAttr, Bool.or_eq_true, beq_iff_eq,
      Bool.and_eq_true, decide_eq_true_eq] at hg
    rcases hg with (((hg | hg) | hg) | hg) | ⟨hg, _⟩
    · rw [hg] at hon
      exact absurd hon (by decide)
    · rw [hg] at hon
      exact absurd hon (by decide)
    · rw [hg] at hon
      exact absurd hon (by decide)
    · rw [hg] at hon
      exact absurd hon (by decide)
    · obtain ⟨t, ht⟩ := prefixOf_ex.mp hg
      have hdp : ("data-").data <+: a.1 := ⟨t, ht.symm⟩
      rcases List.prefix_or_prefix_of_prefix hon hdp with hx | hx
      · exact absurd hx (by decide)
      · exact absurd hx (by decide)
  · have hname : a.1 = ("href").data ∨ a.1 = ("src").data ∨
        a.1 = ("alt").data ∨ a.1 = ("type").data ∨
        a.1 = ("checked").data ∨ a.1 = ("disabled").data ∨
        a.1 = ("tabindex").data := by
      simp only [allowedElemAttr, Bool.or_eq_true, beq_iff_eq,
        Bool.and_eq_true] at he
      tauto
    rcases hname with h1 | h1 | h1 | h1 | h1 | h1 | h1 <;>
      (rw [h1] at hon; exact absurd hon (by decide))

theorem attrOk_scheme {el : List Char} {a : List Char × List Char}
    (h : attrOk el a = true)
    (hn : a.1 = ("href").data ∨ a.1 = ("src").data) :
    dangerousScheme a.2 = false := by
  unfold attrOk at h
  simp only [Bool.and_eq_true] at h
  obtain ⟨h1, h2⟩ := h
  have hc : (a.1 == ("href").data || a.1 == ("src").data) = true := by
    rcases hn with hn | hn <;> simp [hn]
  rw [if_pos hc] at h2
  simpa using h2

/-- C2: for every input, the sanitizer's output contains none of the
banned tag substrings; and every attribute on an emitted tag has a name
that does not begin with "on", and a value free of the dangerous
javascript/vbscript/data-text-html schemes whenever the name is href or
src (attribute values are HTML-entity decoded by the tokenizer before
this check). -/
theorem claim_C2 (x : List Char) :
    (∀ p ∈ bannedTagSubstrings, hasSubstr (sanitizeHTML x) p = false) ∧
    (∀ nm attrs, Tok.tagOpen nm attrs ∈ filterToks (tokenize x) none →
      ∀ a ∈ attrs, ¬ (("on").data <+: a.1) ∧
        ((a.1 = ("href").data ∨ a.1 = ("src").data) →
          dangerousScheme a.2 = false)) := by
  constructor
  · intro p hp
    simp only [bannedTagSubstrings, List.mem_cons, List.not_mem_nil,
      or_false] at hp
    rcases hp with rfl | rfl | rfl | rfl | rfl | rfl | rfl | rfl | rfl
    · simpa using banned_generic (("script").data) (([] : List Char)) x
        (by decide) (by decide) (by decide)
    · simpa using banned_generic (("iframe").data) (([] : List Char)) x
        (by decide) (by decide) (by decide)
    · simpa using banned_generic (("object").data) (([] : List Char)) x
        (by decide) (by decide) (by decide)
    · simpa using banned_generic (("embed").data) (([] : List Char)) x
        (by decide) (by decide) (by decide)
    · simpa using banned_generic (("form").data) (([] : List Char)) x
        (by decide) (by decide) (by decide)
    · simpa using banned_generic (("style").data) (([] : List Char)) x
        (by decide) (by decide) (by decide)
    · simpa using banned_generic (("meta").data) (['>']) x
        (by decide) (by decide) (by decide)
    · simpa using banned_generic (("base").data) (([] : List Char)) x
        (by decide) (by decide) (by decide)
    · simpa using banned_generic (("link").data) ((" rel=").data) x
        (by decide) (by decide) (by decide)
  · intro nm attrs hmem a ha
    have hpol : skipContentElements.contains nm = false ∧
        allowedElements.contains nm = true ∧
        filterAttrs nm attrs = attrs :=
      filterToks_out (tokenize x) none _ hmem
    have hok : attrOk nm a = true := by
      have hmf : a ∈ filterAttrs nm attrs := by
        rw [hpol.2.2]
        exact ha
      exact (List.mem_filter.mp hmf).2
    exact ⟨attrOk_no_on hok, fun hn => attrOk_scheme hok hn⟩

end Cooked
